import Mathlib

/-!
# R.E.P.O save editor: the ES3 decrypt-and-normalize pipeline

A shallow embedding of `app.go`: the key derivation `pbkdf2`, the decryption
entry point `decryptES3`, the locator `extractJSON`, the sanitizer `cleanJSON`,
and `convertDotNetJSON` with its recovery scan and its recursive normalizer
`convertValue`.

Conventions of the embedding.

* A byte is a natural number below 256; where the source converts an `int` to a
  `byte` the embedding reduces modulo 256.
* A Go byte slice is a window `arr[off : off+len]` into a backing array, with a
  capacity `cap` counted from `off`.  The backing array is passed explicitly,
  because `append` writes into it whenever the capacity allows.
* The primitives of the Go standard library that the source calls (HMAC over a
  hash, the AES block function, the gzip decoder, the JSON parser) are
  parameters of the definitions.
* A JSON object decoded by `encoding/json` is a Go map; its entries are listed
  in ascending order of their keys, the order in which `json.Marshal` writes
  them.
* A call either returns a value, returns a Go `error`, or stops with a
  run-time panic: see `Outcome`.
-/

namespace RepoSave

/-- A byte, as a natural number below 256. -/
abbrev Byte := Nat

/-- The three ways a Go call that returns `(value, error)` can end. -/
inductive Outcome (α : Type) where
  /-- The call returned `value, nil`. -/
  | ok (value : α)
  /-- The call returned `nil, err`, with the text of `err`. -/
  | error (msg : String)
  /-- The call did not return: a run-time panic. -/
  | panic (msg : String)
  deriving DecidableEq, Repr

/-! ## Go slices -/

/-- The bytes `arr[off : off+len]`. -/
def sliceBytes (arr : List Byte) (off len : Nat) : List Byte :=
  (arr.drop off).take len

/-- Go's `append(s, xs...)` for the slice `s = arr[off : off+len]` of capacity
`cap`.  When `len + len(xs)` fits in the capacity the new elements are written
into the backing array right after the slice; otherwise a new array is
allocated and the backing array is left alone.  Returns the backing array after
the call and the contents of the resulting slice. -/
def goAppend (arr : List Byte) (off len cap : Nat) (xs : List Byte) :
    List Byte × List Byte :=
  if len + xs.length ≤ cap then
    (arr.take (off + len) ++ xs ++ arr.drop (off + len + xs.length),
      sliceBytes arr off len ++ xs)
  else
    (arr, sliceBytes arr off len ++ xs)

/-! ## pbkdf2 -/

/-- The four bytes `byte(i>>24), byte(i>>16), byte(i>>8), byte(i)`. -/
def blockIndexBytes (i : Nat) : List Byte :=
  [(i >>> 24) % 256, (i >>> 16) % 256, (i >>> 8) % 256, i % 256]

/-- The loop `for k := 0; k < len(temp); k++ { temp[k] ^= block[k] }`: the new
contents of `temp`, or `none` when `block` is shorter than `temp` (index out of
range). -/
def xorInto : List Byte → List Byte → Option (List Byte)
  | [], _ => some []
  | _ :: _, [] => none
  | t :: ts, b :: bs => (xorInto ts bs).map (fun r => (t ^^^ b) :: r)

/-- The loop `for j := 1; j < iterations; j++`, run `n = iterations - 1` times
from the state `(block, temp)`: each round replaces `block` by
`prf(password, block)` and xors it into `temp`.  Returns the final `temp`. -/
def innerLoop (prf : List Byte → List Byte → List Byte) (password : List Byte) :
    Nat → List Byte → List Byte → Option (List Byte)
  | 0, _, temp => some temp
  | n + 1, block, temp =>
    let block1 := prf password block
    match xorInto temp block1 with
    | none => none
    | some temp1 => innerLoop prf password n block1 temp1

/-- The loop `for i := 1; i <= blockCount; i++`, with `n` rounds left and the
counter at `i`.  The state is the backing array of `salt` and `derivedKey`. -/
def outerLoop (prf : List Byte → List Byte → List Byte) (password : List Byte)
    (off len cap iterations : Nat) :
    Nat → Nat → List Byte → List Byte → Option (List Byte × List Byte)
  | 0, _, arr, derivedKey => some (derivedKey, arr)
  | n + 1, i, arr, derivedKey =>
    let (arr1, data) := goAppend arr off len cap (blockIndexBytes i)
    let block := prf password data
    match innerLoop prf password (iterations - 1) block block with
    | none => none
    | some temp => outerLoop prf password off len cap iterations n (i + 1) arr1 (derivedKey ++ temp)

/-- The number of blocks `(keyLen + h().Size() - 1) / h().Size()`. -/
def blockCount (keyLen hLen : Nat) : Nat :=
  (keyLen + hLen - 1) / hLen

/-- The function `pbkdf2(password, salt, iterations, keyLen, h)`.

* `prf key data` is `hmac.New(h, key)` written with `data` and summed, and
  `hLen` is `h().Size()`.
* `salt` is the slice `arr[off : off+len]` with capacity `cap`.
* The result is `none` on a run-time panic (division by a zero hash size, or a
  `prf` result shorter than the first one), and otherwise the returned key
  together with the backing array of `salt` as the call leaves it.
* `derivedKey` is made with capacity `keyLen`, so `derivedKey[:keyLen]` is
  always within capacity; bytes past its length are zero. -/
def pbkdf2 (prf : List Byte → List Byte → List Byte) (hLen : Nat)
    (password : List Byte) (arr : List Byte) (off len cap : Nat)
    (iterations keyLen : Nat) : Option (List Byte × List Byte) :=
  if hLen = 0 then none
  else
    match outerLoop prf password off len cap iterations (blockCount keyLen hLen) 1 arr [] with
    | none => none
    | some (derivedKey, arr1) =>
      some ((derivedKey ++ List.replicate keyLen 0).take keyLen, arr1)

/-! ## decryptES3 -/

/-- Bytewise xor of two blocks (what CBC does with a decrypted block and the
previous ciphertext block). -/
def xorBytes (a b : List Byte) : List Byte :=
  List.zipWith (fun x y => x ^^^ y) a b

/-- CBC decryption of `n` blocks of 16 bytes: each ciphertext block is put
through the block function `dec` and xored with the previous ciphertext block
(the IV for the first one). -/
def cbcDecrypt (dec : List Byte → List Byte) : Nat → List Byte → List Byte → List Byte
  | 0, _, _ => []
  | n + 1, prev, src =>
    xorBytes (dec (src.take 16)) prev ++ cbcDecrypt dec n (src.take 16) (src.drop 16)

/-- Lines 141-145 of `decryptES3`: the file has been read into a buffer with
`spare` bytes of capacity left after its contents; `iv` is `buf[:16]`, the
ciphertext is `buf[16:]`, and `pbkdf2` is called with `iv` as salt.  Returns
the key, and the IV and the ciphertext as they stand in the buffer after the
call (`none` if `pbkdf2` panics). -/
def deriveStage (hmacSha1 : List Byte → List Byte → List Byte)
    (file : List Byte) (spare : Nat) (password : List Byte) :
    Option (List Byte × List Byte × List Byte) :=
  let arr := file ++ List.replicate spare 0
  match pbkdf2 hmacSha1 20 password arr 0 16 (file.length + spare) 100 16 with
  | none => none
  | some (key, arr1) =>
    some (key, sliceBytes arr1 0 16, sliceBytes arr1 16 (file.length - 16))

/-- Lines 158-163 of `decryptES3`: PKCS#7 unpadding of the decrypted buffer. -/
def unpadStage (decryptedData : List Byte) : Outcome (List Byte) :=
  match decryptedData.getLast? with
  | none => .panic "index out of range [-1]"
  | some lastByte =>
    let paddingLen : Nat := lastByte
    if paddingLen > 16 ∨ paddingLen = 0 then .error "invalid padding"
    else if decryptedData.length < paddingLen then .panic "slice bounds out of range"
    else .ok (decryptedData.take (decryptedData.length - paddingLen))

/-- Lines 165-181 of `decryptES3`: gzip detection and decompression.
`gzipHeader d` says whether `gzip.NewReader` accepts `d`, and `gzipReadAll d`
is what `io.ReadAll` then reads (`none` on a read error). -/
def gzipStage (gzipHeader : List Byte → Bool) (gzipReadAll : List Byte → Option (List Byte))
    (decryptedData : List Byte) : Outcome (List Byte) :=
  if decryptedData.length ≥ 2 ∧ decryptedData.get? 0 = some 0x1f
      ∧ decryptedData.get? 1 = some 0x8b then
    if gzipHeader decryptedData then
      match gzipReadAll decryptedData with
      | none => .error "error decompressing data"
      | some decompressedData => .ok decompressedData
    else .error "error creating gzip reader"
  else .ok decryptedData

/-- Lines 137-163 of `decryptES3`: everything up to and including the
unpadding, on the contents `file` of the file that was read.

* `hmacSha1` is HMAC-SHA1 and `aesDecrypt key` the AES decryption of one block.
* `aes.NewCipher` returns an error unless the key has 16, 24 or 32 bytes.
* `cipher.NewCBCDecrypter` panics unless the IV has 16 bytes, and `CryptBlocks`
  panics unless the source is a whole number of blocks. -/
def decryptUnpad (hmacSha1 : List Byte → List Byte → List Byte)
    (aesDecrypt : List Byte → List Byte → List Byte)
    (file : List Byte) (spare : Nat) (password : List Byte) : Outcome (List Byte) :=
  if file.length < 16 then .error "encrypted data too short"
  else
    match deriveStage hmacSha1 file spare password with
    | none => .panic "pbkdf2"
    | some (key, iv, encryptedData) =>
      if key.length ≠ 16 ∧ key.length ≠ 24 ∧ key.length ≠ 32 then
        .error "error creating AES cipher"
      else if iv.length ≠ 16 then .panic "cipher.NewCBCDecrypter: IV length must equal block size"
      else if encryptedData.length % 16 ≠ 0 then .panic "crypto/cipher: input not full blocks"
      else
        unpadStage (cbcDecrypt (aesDecrypt key) (encryptedData.length / 16) iv encryptedData)

/-- The function `decryptES3`, from the point where the file has been read
successfully: `file` is its contents and `spare` the capacity that
`os.ReadFile` left after them in the buffer it returns. -/
def decryptES3 (hmacSha1 : List Byte → List Byte → List Byte)
    (aesDecrypt : List Byte → List Byte → List Byte)
    (gzipHeader : List Byte → Bool) (gzipReadAll : List Byte → Option (List Byte))
    (file : List Byte) (spare : Nat) (password : List Byte) : Outcome (List Byte) :=
  match decryptUnpad hmacSha1 aesDecrypt file spare password with
  | .ok decryptedData => gzipStage gzipHeader gzipReadAll decryptedData
  | .error msg => .error msg
  | .panic msg => .panic msg

/-! ## Reference definitions, following the specification -/

/-- The specification's `BigEndian32(i)`. -/
def bigEndian32 (i : Nat) : List Byte :=
  [i / 2 ^ 24 % 256, i / 2 ^ 16 % 256, i / 2 ^ 8 % 256, i % 256]

/-- The specification's `U(j+1)` for block `i`: `U1 = HMAC(password, salt ||
BigEndian32(i))` and `U(j) = HMAC(password, U(j-1))`. -/
def refU (prf : List Byte → List Byte → List Byte) (password salt : List Byte) (i : Nat) :
    Nat → List Byte
  | 0 => prf password (salt ++ bigEndian32 i)
  | j + 1 => prf password (refU prf password salt i j)

/-- The specification's `T(i) = U1 xor U2 xor ... xor U(iterations)`. -/
def refT (prf : List Byte → List Byte → List Byte) (password salt : List Byte)
    (iterations i : Nat) : List Byte :=
  ((List.range (iterations - 1)).map (fun j => refU prf password salt i (j + 1))).foldl
    xorBytes (refU prf password salt i 0)

/-- The least number of blocks of `hLen` bytes that hold `keyLen` bytes. -/
def ceilDiv (keyLen hLen : Nat) : Nat :=
  if keyLen % hLen = 0 then keyLen / hLen else keyLen / hLen + 1

/-- Reference PBKDF2: the first `keyLen` bytes of `T(1) || T(2) || ...`. -/
def refPBKDF2 (prf : List Byte → List Byte → List Byte) (hLen : Nat)
    (password salt : List Byte) (iterations keyLen : Nat) : List Byte :=
  (((List.range (ceilDiv keyLen hLen)).map
    (fun b => refT prf password salt iterations (b + 1))).flatten).take keyLen

/-- PKCS#7 padding to a multiple of 16 bytes. -/
def pkcs7Pad (p : List Byte) : List Byte :=
  p ++ List.replicate (16 - p.length % 16) (16 - p.length % 16)

/-- CBC encryption of `n` blocks of 16 bytes with the block function `enc`. -/
def cbcEncrypt (enc : List Byte → List Byte) : Nat → List Byte → List Byte → List Byte
  | 0, _, _ => []
  | n + 1, prev, src =>
    let c := enc (xorBytes (src.take 16) prev)
    c ++ cbcEncrypt enc n c (src.drop 16)

/-- The reference encryptor of the specification: the IV followed by the
AES-128-CBC encryption of the padded plaintext under the derived key. -/
def refEncrypt (hmacSha1 : List Byte → List Byte → List Byte)
    (aesEncrypt : List Byte → List Byte → List Byte)
    (plaintext password iv : List Byte) : List Byte :=
  let key := refPBKDF2 hmacSha1 20 password iv 100 16
  iv ++ cbcEncrypt (aesEncrypt key) ((pkcs7Pad plaintext).length / 16) iv (pkcs7Pad plaintext)

/-! ## Toy primitives, for evaluating the definitions on concrete inputs -/

/-- A stand-in for HMAC-SHA1 with the right output size: 20 bytes made from the
lengths of the key and of the data. -/
def toyHmac (key data : List Byte) : List Byte :=
  List.replicate 20 ((key.length + 3 * data.length) % 256)

/-- A stand-in for the AES encryption of a block: xor with the key. -/
def toyAes (key block : List Byte) : List Byte :=
  xorBytes block key

/-! ## The normalizer `convertValue` -/

/-- A JSON value as Go holds it after `json.Unmarshal` into `interface{}`:
`nil`, `bool`, `float64` (given by its 64 bits), `string`, `[]interface{}` and
`map[string]interface{}`.  The same trees serve as documents: the fields of an
object are then listed in the order of the text. -/
inductive JVal where
  | null
  | bool (b : Bool)
  | num (bits : Nat)
  | str (s : String)
  | arr (items : List JVal)
  | obj (fields : List (String × JVal))

/-- The map index expression `val[key]`: the value stored under `key`, if any. -/
def lookupField (key : String) : List (String × JVal) → Option JVal
  | [] => none
  | (k, v) :: rest => if k = key then some v else lookupField key rest

/-- The call `strings.Contains(s, sub)`. -/
def containsSubstr (s sub : String) : Bool :=
  s.data.tails.any (fun t => sub.data.isPrefixOf t)

mutual
/-- The closure `convertValue` of `convertDotNetJSON`. -/
def convertValue : JVal → JVal
  | .obj fields =>
    match lookupField "__type" fields with
    | some (.str typeStr) =>
      match convertAt "value" fields with
      | some converted => converted
      | none =>
        if containsSubstr typeStr "Dictionary" then
          match convertItemsAt "value" fields with
          | some result => result
          | none => .null
        else .null
    | _ => .obj (convertFields fields)
  | .arr items => .arr (convertItems items)
  | v => v
/-- The loop `for i, v := range val { result[i] = convertValue(v) }`. -/
def convertItems : List JVal → List JVal
  | [] => []
  | v :: rest => convertValue v :: convertItems rest
/-- The loop `for k, v := range val { result[k] = convertValue(v) }`. -/
def convertFields : List (String × JVal) → List (String × JVal)
  | [] => []
  | (k, v) :: rest => (k, convertValue v) :: convertFields rest
/-- `convertValue(val[key])` when `key` is present. -/
def convertAt (key : String) : List (String × JVal) → Option JVal
  | [] => none
  | (k, v) :: rest => if k = key then some (convertValue v) else convertAt key rest
/-- The type assertion `v.(map[string]interface{})` followed, when it holds, by
the loop `for k, v := range items { result[k] = convertValue(v) }`. -/
def convertDict : JVal → Option JVal
  | .obj items => some (.obj (convertFields items))
  | _ => none
/-- The converted dictionary when `val[key]` is present and is a map. -/
def convertItemsAt (key : String) : List (String × JVal) → Option JVal
  | [] => none
  | (k, v) :: rest => if k = key then convertDict v else convertItemsAt key rest
end


/-! ## Decoding and encoding by `encoding/json` -/

/-- Whether the map holds `key`. -/
def hasKey (key : String) (m : List (String × JVal)) : Bool :=
  (lookupField key m).isSome

/-- Lexicographic comparison of two sequences of code points. -/
def ltCodes : List Nat → List Nat → Bool
  | _, [] => false
  | [], _ :: _ => true
  | a :: as, b :: bs => decide (a < b) || (decide (a = b) && ltCodes as bs)

/-- The order in which `json.Marshal` sorts the keys of a map: bytewise
comparison of the strings, which for the UTF-8 strings that the decoder
produces is the lexicographic comparison of their code points. -/
def keyLt (a b : String) : Bool :=
  ltCodes (a.data.map Char.toNat) (b.data.map Char.toNat)

/-- The entries of a Go map are kept in ascending order of their keys, the
order in which `json.Marshal` writes them.  `mapInsert k v m` adds the entry
`k, v` to such a list. -/
def mapInsert (k : String) (v : JVal) : List (String × JVal) → List (String × JVal)
  | [] => [(k, v)]
  | (k', v') :: rest =>
    if keyLt k k' then (k, v) :: (k', v') :: rest
    else if k = k' then (k, v) :: rest
    else (k', v') :: mapInsert k v rest

mutual
/-- What `json.Unmarshal` stores for a document: every object becomes a map,
in which the last of several members with the same key wins. -/
def goValue : JVal → JVal
  | .obj members => .obj (goMap members)
  | .arr items => .arr (goItems items)
  | v => v
/-- The elements of a decoded array. -/
def goItems : List JVal → List JVal
  | [] => []
  | v :: rest => goValue v :: goItems rest
/-- The map decoded from the members of an object, given in text order. -/
def goMap : List (String × JVal) → List (String × JVal)
  | [] => []
  | (k, v) :: rest =>
    if hasKey k (goMap rest) then goMap rest else mapInsert k (goValue v) (goMap rest)
end

/-- Lines 305-357 of `convertDotNetJSON`, after a successful parse: `members`
are the members of the root object in the order of the text that
`json.Unmarshal` accepted; every top-level field of the decoded map is
converted, and the result is the document that `json.Marshal` writes, the keys
of every object in the order in which they are written. -/
def convertParsed (members : List (String × JVal)) : JVal :=
  .obj (convertFields (goMap members))

/-! ## Predicates on JSON trees -/

/-- Whether the object carries a string-valued `__type` key. -/
def hasStringTag (fields : List (String × JVal)) : Bool :=
  match lookupField "__type" fields with
  | some (.str _) => true
  | _ => false

/-- Whether the object carries an object-valued `__type` key. -/
def hasObjectTag (fields : List (String × JVal)) : Bool :=
  match lookupField "__type" fields with
  | some (.obj _) => true
  | _ => false

mutual
/-- No object of the tree, at any depth, carries a string-valued `__type` key. -/
def isPlain : JVal → Bool
  | .obj fields => !hasStringTag fields && isPlainFields fields
  | .arr items => isPlainItems items
  | _ => true
/-- Every element is plain. -/
def isPlainItems : List JVal → Bool
  | [] => true
  | v :: rest => isPlain v && isPlainItems rest
/-- Every field value is plain. -/
def isPlainFields : List (String × JVal) → Bool
  | [] => true
  | (_, v) :: rest => isPlain v && isPlainFields rest
end

mutual
/-- No object of the tree, at any depth, carries an object-valued `__type` key. -/
def noObjectTag : JVal → Bool
  | .obj fields => !hasObjectTag fields && noObjectTagFields fields
  | .arr items => noObjectTagItems items
  | _ => true
/-- No element has an object-valued `__type` key anywhere. -/
def noObjectTagItems : List JVal → Bool
  | [] => true
  | v :: rest => noObjectTag v && noObjectTagItems rest
/-- No field value has an object-valued `__type` key anywhere. -/
def noObjectTagFields : List (String × JVal) → Bool
  | [] => true
  | (_, v) :: rest => noObjectTag v && noObjectTagFields rest
end

/-- The keys of an object, in order. -/
def keysOf (fields : List (String × JVal)) : List String :=
  fields.map Prod.fst

/-- The keys are in strictly ascending order. -/
def ascending : List String → Bool
  | [] => true
  | [_] => true
  | a :: b :: rest => keyLt a b && ascending (b :: rest)

mutual
/-- The keys of every object of the tree, at any depth, are in strictly
ascending order. -/
def keysAscending : JVal → Bool
  | .obj fields => ascending (keysOf fields) && keysAscendingFields fields
  | .arr items => keysAscendingItems items
  | _ => true
/-- Every element has ascending keys throughout. -/
def keysAscendingItems : List JVal → Bool
  | [] => true
  | v :: rest => keysAscending v && keysAscendingItems rest
/-- Every field value has ascending keys throughout. -/
def keysAscendingFields : List (String × JVal) → Bool
  | [] => true
  | (_, v) :: rest => keysAscending v && keysAscendingFields rest
end

/-- The fields of the root object of a document. -/
def rootFields : JVal → List (String × JVal)
  | .obj fields => fields
  | _ => []

/-- The keys of the root object of a document. -/
def rootKeys : JVal → List String
  | .obj fields => keysOf fields
  | _ => []

/-! ## cleanJSON and the two-phase parse of convertDotNetJSON -/

/-- The bytes of a text written in ASCII. -/
def ascii (s : String) : List Byte :=
  s.data.map Char.toNat

/-- The call `strings.ReplaceAll(s, old, new)` for a two-byte `old = a b`: the
non-overlapping occurrences of `a b`, found from left to right, are replaced by
`new`. -/
def replacePair (a b : Byte) (new : List Byte) : List Byte → List Byte
  | x :: y :: rest =>
    if x = a ∧ y = b then new ++ replacePair a b new rest
    else x :: replacePair a b new (y :: rest)
  | s => s

/-- The call `strings.Split(s, "\n")`. -/
def splitLines : List Byte → List (List Byte)
  | [] => [[]]
  | c :: rest =>
    if c = 0x0A then [] :: splitLines rest
    else
      match splitLines rest with
      | line :: lines => (c :: line) :: lines
      | [] => [[c]]

/-- The call `strings.Join(lines, "\n")`. -/
def joinLines : List (List Byte) → List Byte
  | [] => []
  | [line] => line
  | line :: rest => line ++ 0x0A :: joinLines rest

/-- The UTF-8 encodings of the characters for which `unicode.IsSpace` holds:
tab, line feed, vertical tab, form feed, carriage return, space, U+0085,
U+00A0, U+1680, U+2000 to U+200A, U+2028, U+2029, U+202F, U+205F, U+3000. -/
def spaceSeqs : List (List Byte) :=
  [[0x09], [0x0A], [0x0B], [0x0C], [0x0D], [0x20], [0xC2, 0x85], [0xC2, 0xA0],
    [0xE1, 0x9A, 0x80], [0xE2, 0x80, 0x80], [0xE2, 0x80, 0x81], [0xE2, 0x80, 0x82],
    [0xE2, 0x80, 0x83], [0xE2, 0x80, 0x84], [0xE2, 0x80, 0x85], [0xE2, 0x80, 0x86],
    [0xE2, 0x80, 0x87], [0xE2, 0x80, 0x88], [0xE2, 0x80, 0x89], [0xE2, 0x80, 0x8A],
    [0xE2, 0x80, 0xA8], [0xE2, 0x80, 0xA9], [0xE2, 0x80, 0xAF], [0xE2, 0x81, 0x9F],
    [0xE3, 0x80, 0x80]]

/-- The text without the first of `seqs` that it starts with, if any. -/
def dropSeq (seqs : List (List Byte)) (s : List Byte) : Option (List Byte) :=
  seqs.findSome? (fun q => if q.isPrefixOf s then some (s.drop q.length) else none)

/-- The text without its leading run of sequences from `seqs` (at most `n` of
them). -/
def trimFront (seqs : List (List Byte)) : Nat → List Byte → List Byte
  | 0, s => s
  | n + 1, s =>
    match dropSeq seqs s with
    | some rest => trimFront seqs n rest
    | none => s

/-- The call `strings.TrimSpace(s)` on the bytes of `s`: the leading and the
trailing white space characters are removed.  A character is decoded as white
space exactly when the text starts (respectively ends) with its UTF-8
encoding. -/
def trimSpace (s : List Byte) : List Byte :=
  let front := trimFront spaceSeqs s.length s
  (trimFront (spaceSeqs.map List.reverse) front.length front.reverse).reverse

/-- The loop `for _, char := range line` of `cleanJSON`, from the state
`(depth, started)`.  The loop decodes runes; a byte `{` or `}` of the text is
always a rune of its own, so the loop is run over the bytes. -/
def scanLine : List Byte → Int → Bool → Int × Bool
  | [], depth, started => (depth, started)
  | c :: rest, depth, started =>
    if c = 0x7B then scanLine rest (depth + 1) true
    else if c = 0x7D then scanLine rest (depth - 1) started
    else scanLine rest depth started

/-- The loop `for _, line := range lines` of `cleanJSON`, from the state
`(depth, started)`: the lines appended to `jsonLines`. -/
def collectLines : List (List Byte) → Int → Bool → List (List Byte)
  | [], _, _ => []
  | rawLine :: rest, depth, started =>
    let line := trimSpace rawLine
    if line = [] then collectLines rest depth started
    else
      let state := scanLine line depth started
      if state.2 then
        if state.1 = 0 then [line] else line :: collectLines rest state.1 state.2
      else collectLines rest state.1 state.2

/-- The function `cleanJSON`. -/
def cleanJSON (jsonData : List Byte) : List Byte :=
  let jsonStr := replacePair 0x0D 0x0A [0x0A] jsonData
  let lines := splitLines jsonStr
  let jsonLines := collectLines lines 0 false
  if jsonLines.length = 0 then [0x7B, 0x7D]
  else
    let joined := joinLines jsonLines
    let noBrace := replacePair 0x2C 0x7D [0x7D] joined
    let noBracket := replacePair 0x2C 0x5D [0x5D] noBrace
    trimSpace noBracket

/-- Lines 266-296 of `convertDotNetJSON`: the bytes written to `buffer` by the
scan for the first complete object, from the state `(depth, inString,
escaped)`. -/
def recoveryScan : List Byte → Int → Bool → Bool → List Byte
  | [], _, _, _ => []
  | c :: rest, depth, inString, escaped =>
    if escaped then c :: recoveryScan rest depth inString false
    else if c = 0x5C then c :: recoveryScan rest depth inString true
    else if c = 0x22 then c :: recoveryScan rest depth (!inString) false
    else if !inString then
      if c = 0x7B then c :: recoveryScan rest (depth + 1) inString false
      else if c = 0x7D then
        if depth - 1 = 0 then [c] else c :: recoveryScan rest (depth - 1) inString false
      else c :: recoveryScan rest depth inString false
    else c :: recoveryScan rest depth inString false

/-- Lines 255-303 of `convertDotNetJSON`: the members of the root object that
is parsed, first from the cleaned text and, if that fails, from the slice kept
by the recovery scan; `none` when both parses fail.

`unmarshal text` is `json.Unmarshal(text, &data)` for a `data` of type
`map[string]interface{}`: `none` when it returns an error, and otherwise the
members of the root object of `text`, in the order of the text. -/
def parseRoot (unmarshal : List Byte → Option (List (String × JVal)))
    (jsonData : List Byte) : Option (List (String × JVal)) :=
  let cleanedJSON := cleanJSON jsonData
  match unmarshal cleanedJSON with
  | some members => some members
  | none => unmarshal (recoveryScan cleanedJSON 0 false false)

/-- The method `convertDotNetJSON`.  The result is the document that
`json.Marshal(converted)` writes, or the error `error parsing JSON`. -/
def convertDotNetJSON (unmarshal : List Byte → Option (List (String × JVal)))
    (jsonData : List Byte) : Outcome JVal :=
  match parseRoot unmarshal jsonData with
  | none => .error "error parsing JSON"
  | some members => .ok (convertParsed members)

/-- A stand-in for `json.Unmarshal` that knows five objects, the empty object
`{}` among them, and rejects every other text.  It is used only at texts on
which it agrees with `json.Unmarshal`: the five objects, and texts that are
not JSON. -/
def toyUnmarshal (text : List Byte) : Option (List (String × JVal)) :=
  if text = ascii "\x7b\x7d" then some []
  else if text = ascii "\x7b\"b\":1,\"a\":2\x7d" then
    some [("b", .num 4607182418800017408), ("a", .num 4611686018427387904)]
  else if text = ascii "\x7b\"__type\":\"System.String\",\"value\":\"hi\"\x7d" then
    some [("__type", .str "System.String"), ("value", .str "hi")]
  else if text = ascii "\x7b\"k\":\x7b\"__type\":\x7b\"__type\":\"T\",\"value\":\"s\"\x7d\x7d\x7d" then
    some [("k", .obj [("__type", .obj [("__type", .str "T"), ("value", .str "s")])])]
  else if text = ascii "\x7b\"k\":\x7b\"__type\":\"System.String\",\"value\":\"hi\"\x7d\x7d" then
    some [("k", .obj [("__type", .str "System.String"), ("value", .str "hi")])]
  else none


/-! ## extractJSON -/

/-- The call `bytes.IndexByte(data, c)`: the index of the first `c` in `data`,
or -1 when there is none. -/
def indexByte : List Byte → Byte → Int
  | [], _ => -1
  | x :: rest, c =>
    if x = c then 0
    else if indexByte rest c = -1 then -1 else indexByte rest c + 1

/-- The function `extractJSON`. -/
def extractJSON (data : List Byte) : List Byte :=
  let jsonStart := indexByte data 0x7B
  if jsonStart = -1 then data else data.drop jsonStart.toNat

/-! ## Auxiliary definitions for the sanitizer -/

/-- The list of lines with `p` put in front of its first line. -/
def withHead (p : List Byte) : List (List Byte) → List (List Byte)
  | line :: lines => (p ++ line) :: lines
  | [] => [p]

/-- Whether the byte `a` is immediately followed by the byte `b` somewhere in
the text. -/
def hasPair (a b : Byte) : List Byte → Bool
  | x :: y :: rest => (decide (x = a) && decide (y = b)) || hasPair a b (y :: rest)
  | _ => false

/-- The lines that the sanitizer keeps of the lines `ls` when it does not stop
before their end, stated without the loop: each line is trimmed, the blank
lines are left out, and so are the lines before the first one that holds a
`{`. -/
def keptLines (ls : List (List Byte)) : List (List Byte) :=
  ((ls.map trimSpace).filter (fun l => decide (l ≠ []))).dropWhile
    (fun l => decide ((0x7B : Byte) ∉ l))

/-! ## The recovery scan in the words of the specification -/

/-- The state of the recovery scan: the depth counter and the two flags. -/
structure ScanState where
  depth : Int
  inString : Bool
  escaped : Bool
  deriving DecidableEq, Repr

/-- One byte of the scan in the words of the specification: an unescaped `"`
toggles the inside-string flag, a backslash inside a string sets the one-shot
escaped flag, and `{` and `}` count toward the depth only outside a string. -/
def refStep (st : ScanState) (c : Byte) : ScanState :=
  if st.inString then
    if st.escaped then { st with escaped := false }
    else if c = 0x5C then { st with escaped := true }
    else if c = 0x22 then { st with inString := false }
    else st
  else if c = 0x22 then { st with inString := true }
  else if c = 0x7B then { st with depth := st.depth + 1 }
  else if c = 0x7D then { st with depth := st.depth - 1 }
  else st

/-- The state of the specification's scan after the text `s`, from `st`. -/
def refRun (st : ScanState) (s : List Byte) : ScanState :=
  s.foldl refStep st

/-- The brace depth of the text `s`, counted outside string literals. -/
def refDepth (s : List Byte) : Int :=
  (refRun ⟨0, false, false⟩ s).depth

/-- No backslash of the text stands outside a string literal (scanning from the
state `st`). -/
def noStrayBackslash : List Byte → ScanState → Bool
  | [], _ => true
  | c :: rest, st =>
    !(decide (c = 0x5C) && !st.inString) && noStrayBackslash rest (refStep st c)

/-! ## Facts about slices and `append` -/

theorem xorBytes_length (a b : List Byte) :
    (xorBytes a b).length = min a.length b.length := by
  simp [xorBytes]

theorem xorInto_eq_xorBytes : ∀ (temp block : List Byte), temp.length ≤ block.length →
    xorInto temp block = some (xorBytes temp block)
  | [], _, _ => by simp [xorInto, xorBytes]
  | _ :: _, [], h => by simp at h
  | t :: ts, b :: bs, h => by
    have ih := xorInto_eq_xorBytes ts bs (by simpa using h)
    simp [xorInto, ih, xorBytes]

theorem goAppend_data (arr : List Byte) (off len cap : Nat) (xs : List Byte) :
    (goAppend arr off len cap xs).2 = sliceBytes arr off len ++ xs := by
  unfold goAppend
  split <;> rfl

theorem goAppend_length (arr : List Byte) (off len cap : Nat) (xs : List Byte)
    (hcap : off + cap ≤ arr.length) :
    (goAppend arr off len cap xs).1.length = arr.length := by
  unfold goAppend
  split
  · simp
    omega
  · rfl

theorem goAppend_front (arr : List Byte) (off len cap : Nat) (xs : List Byte)
    (h : off + len ≤ arr.length) :
    (goAppend arr off len cap xs).1.take (off + len) = arr.take (off + len) := by
  unfold goAppend
  split
  · rw [List.append_assoc, List.take_left' (by simp; omega)]
  · rfl

theorem sliceBytes_eq_of_front (a b : List Byte) (off len : Nat)
    (h : a.take (off + len) = b.take (off + len)) :
    sliceBytes a off len = sliceBytes b off len := by
  unfold sliceBytes
  rw [List.take_drop, List.take_drop, h]

theorem blockIndexBytes_eq (i : Nat) : blockIndexBytes i = bigEndian32 i := by
  simp [blockIndexBytes, bigEndian32, Nat.shiftRight_eq_div_pow]

/-! ## pbkdf2 against the reference -/

theorem refU_length (prf : List Byte → List Byte → List Byte) (hLen : Nat)
    (hprf : ∀ k d, (prf k d).length = hLen) (password salt : List Byte) (i j : Nat) :
    (refU prf password salt i j).length = hLen := by
  cases j <;> simp [refU, hprf]

theorem innerLoop_eq (prf : List Byte → List Byte → List Byte) (hLen : Nat)
    (hprf : ∀ k d, (prf k d).length = hLen) (password salt : List Byte) (i : Nat) :
    ∀ (n j : Nat) (temp : List Byte), temp.length = hLen →
      innerLoop prf password n (refU prf password salt i j) temp
        = some (((List.range n).map (fun m => refU prf password salt i (j + m + 1))).foldl
            xorBytes temp)
  | 0, _, _, _ => by simp [innerLoop]
  | n + 1, j, temp, ht => by
    have hx : xorInto temp (prf password (refU prf password salt i j))
        = some (xorBytes temp (refU prf password salt i (j + 1))) := by
      rw [xorInto_eq_xorBytes _ _ (by rw [ht, hprf])]
      rfl
    have ih := innerLoop_eq prf hLen hprf password salt i n (j + 1)
      (xorBytes temp (refU prf password salt i (j + 1)))
      (by rw [xorBytes_length, ht, refU_length prf hLen hprf]; simp)
    simp only [innerLoop, hx]
    rw [show prf password (refU prf password salt i j) = refU prf password salt i (j + 1) from rfl,
      ih, List.range_succ_eq_map]
    simp only [List.map_cons, List.foldl_cons, List.map_map, Nat.add_zero]
    congr 2
    apply List.map_congr_left
    intro m _
    simp only [Function.comp, Nat.succ_eq_add_one]
    congr 1
    omega

theorem refT_length (prf : List Byte → List Byte → List Byte) (hLen : Nat)
    (hprf : ∀ k d, (prf k d).length = hLen) (password salt : List Byte) (iterations i : Nat) :
    (refT prf password salt iterations i).length = hLen := by
  unfold refT
  generalize hu : refU prf password salt i 0 = u
  have hul : u.length = hLen := by rw [← hu]; exact refU_length prf hLen hprf _ _ _ _
  clear hu
  induction (List.range (iterations - 1)) generalizing u with
  | nil => simpa using hul
  | cons a l ih =>
    simp only [List.map_cons, List.foldl_cons]
    apply ih
    rw [xorBytes_length, hul, refU_length prf hLen hprf]
    simp

theorem outerLoop_eq (prf : List Byte → List Byte → List Byte) (hLen : Nat)
    (hprf : ∀ k d, (prf k d).length = hLen) (password : List Byte)
    (off len cap iterations : Nat) (hlc : len ≤ cap) :
    ∀ (n i : Nat) (arr dk : List Byte), off + cap ≤ arr.length →
      ∃ arr1, outerLoop prf password off len cap iterations n i arr dk
          = some (dk ++ ((List.range n).map (fun b =>
              refT prf password (sliceBytes arr off len) iterations (i + b))).flatten, arr1)
        ∧ arr1.length = arr.length ∧ arr1.take (off + len) = arr.take (off + len)
  | 0, _, arr, dk, _ => ⟨arr, by simp [outerLoop], rfl, rfl⟩
  | n + 1, i, arr, dk, harr => by
    have hd := goAppend_data arr off len cap (blockIndexBytes i)
    have hl := goAppend_length arr off len cap (blockIndexBytes i) harr
    have hp := goAppend_front arr off len cap (blockIndexBytes i) (by omega)
    rcases hg : goAppend arr off len cap (blockIndexBytes i) with ⟨arr1, data⟩
    rw [hg] at hd hl hp
    simp only at hd hl hp
    obtain ⟨arr2, h2, hl2, hp2⟩ := outerLoop_eq prf hLen hprf password off len cap iterations hlc
      n (i + 1) arr1 (dk ++ refT prf password (sliceBytes arr off len) iterations i)
      (by omega)
    refine ⟨arr2, ?_, by omega, by rw [hp2, hp]⟩
    have hin := innerLoop_eq prf hLen hprf password (sliceBytes arr off len) i (iterations - 1) 0
      (refU prf password (sliceBytes arr off len) i 0) (refU_length prf hLen hprf _ _ _ _)
    have hT : innerLoop prf password (iterations - 1) (prf password data) (prf password data)
        = some (refT prf password (sliceBytes arr off len) iterations i) := by
      rw [hd, blockIndexBytes_eq]
      rw [show prf password (sliceBytes arr off len ++ bigEndian32 i)
        = refU prf password (sliceBytes arr off len) i 0 from rfl, hin]
      simp [refT]
    simp only [outerLoop, hg, hT, h2]
    rw [sliceBytes_eq_of_front arr1 arr off len hp, List.range_succ_eq_map]
    simp only [List.map_cons, List.flatten_cons, List.map_map, Nat.add_zero, List.append_assoc]
    congr 5
    apply List.map_congr_left
    intro m _
    simp only [Function.comp, Nat.succ_eq_add_one]
    congr 1
    omega

theorem blockCount_eq_ceilDiv (keyLen hLen : Nat) (h : 0 < hLen) :
    blockCount keyLen hLen = ceilDiv keyLen hLen := by
  unfold blockCount ceilDiv
  have hdm := Nat.div_add_mod keyLen hLen
  have hlt := Nat.mod_lt keyLen h
  split
  · rename_i h0
    rw [h0, Nat.add_zero] at hdm
    apply Nat.div_eq_of_lt_le
    · rw [Nat.mul_comm]; omega
    · rw [Nat.add_mul, Nat.mul_comm]; omega
  · apply Nat.div_eq_of_lt_le
    · rw [Nat.add_mul, Nat.mul_comm]; omega
    · rw [Nat.add_mul, Nat.add_mul, Nat.mul_comm]; omega

theorem refBlocks_length (prf : List Byte → List Byte → List Byte) (hLen : Nat)
    (hprf : ∀ k d, (prf k d).length = hLen) (password salt : List Byte) (iterations i : Nat) :
    ∀ n : Nat, (((List.range n).map (fun b =>
        refT prf password salt iterations (i + b))).flatten).length = n * hLen := by
  intro n
  induction n with
  | zero => simp
  | succ n ih =>
    rw [List.range_succ, List.map_append, List.flatten_append, List.length_append, ih]
    simp [refT_length prf hLen hprf, Nat.add_mul]

theorem le_ceilDiv_mul (keyLen hLen : Nat) (h : 0 < hLen) :
    keyLen ≤ ceilDiv keyLen hLen * hLen := by
  unfold ceilDiv
  have hdm := Nat.div_add_mod keyLen hLen
  have hlt := Nat.mod_lt keyLen h
  split
  · rename_i h0
    rw [h0, Nat.add_zero, Nat.mul_comm] at hdm
    omega
  · rw [Nat.add_mul, Nat.mul_comm]
    omega

theorem pbkdf2_run (prf : List Byte → List Byte → List Byte) (hLen : Nat)
    (password arr : List Byte) (off len cap iterations keyLen : Nat)
    (hh : 0 < hLen) (hprf : ∀ k d, (prf k d).length = hLen)
    (hlc : len ≤ cap) (harr : off + cap ≤ arr.length) :
    ∃ arr1, pbkdf2 prf hLen password arr off len cap iterations keyLen
        = some (refPBKDF2 prf hLen password (sliceBytes arr off len) iterations keyLen, arr1)
      ∧ arr1.length = arr.length ∧ arr1.take (off + len) = arr.take (off + len) := by
  obtain ⟨arr1, h1, hl1, hp1⟩ := outerLoop_eq prf hLen hprf password off len cap iterations hlc
    (blockCount keyLen hLen) 1 arr [] harr
  refine ⟨arr1, ?_, hl1, hp1⟩
  have hlen := refBlocks_length prf hLen hprf password (sliceBytes arr off len) iterations 1
    (blockCount keyLen hLen)
  have hge := le_ceilDiv_mul keyLen hLen hh
  rw [← blockCount_eq_ceilDiv keyLen hLen hh] at hge
  unfold pbkdf2
  rw [if_neg (by omega), h1]
  simp only [List.nil_append]
  rw [List.take_append_of_le_length (by omega)]
  unfold refPBKDF2
  rw [← blockCount_eq_ceilDiv keyLen hLen hh]
  congr 5
  funext b
  rw [Nat.add_comm]

theorem refPBKDF2_length (prf : List Byte → List Byte → List Byte) (hLen : Nat)
    (password salt : List Byte) (iterations keyLen : Nat)
    (hh : 0 < hLen) (hprf : ∀ k d, (prf k d).length = hLen) :
    (refPBKDF2 prf hLen password salt iterations keyLen).length = keyLen := by
  have hge := le_ceilDiv_mul keyLen hLen hh
  have hlen := refBlocks_length prf hLen hprf password salt iterations 1 (ceilDiv keyLen hLen)
  have hfun : (fun b => refT prf password salt iterations (1 + b))
      = (fun b => refT prf password salt iterations (b + 1)) := by
    funext b; rw [Nat.add_comm]
  rw [hfun] at hlen
  unfold refPBKDF2
  rw [List.length_take, hlen]
  omega

/-- C2: for every password, every salt slice that lies within its backing
array, every iteration count of at least one, every key length and every
pseudorandom function with a fixed output size `hLen > 0`, the key returned by
`pbkdf2` is the first `keyLen` bytes of `T(1) || T(2) || ...` of the reference
PBKDF2; it has exactly `keyLen` bytes; and a 16-byte key with a 20-byte hash
takes one block. -/
theorem pbkdf2_eq_reference (prf : List Byte → List Byte → List Byte) (hLen : Nat)
    (password arr : List Byte) (off len cap iterations keyLen : Nat)
    (hh : 0 < hLen) (hprf : ∀ k d, (prf k d).length = hLen) (_hit : 1 ≤ iterations)
    (hlc : len ≤ cap) (harr : off + cap ≤ arr.length) :
    (pbkdf2 prf hLen password arr off len cap iterations keyLen).map Prod.fst
        = some (refPBKDF2 prf hLen password (sliceBytes arr off len) iterations keyLen)
      ∧ (refPBKDF2 prf hLen password (sliceBytes arr off len) iterations keyLen).length = keyLen
      ∧ blockCount 16 20 = 1 := by
  obtain ⟨arr1, h1, _, _⟩ := pbkdf2_run prf hLen password arr off len cap iterations keyLen
    hh hprf hlc harr
  exact ⟨by rw [h1]; rfl, refPBKDF2_length prf hLen password _ iterations keyLen hh hprf, by decide⟩

/-! ## The state of the file buffer after key derivation -/

theorem pbkdf2_arr_one_block (prf : List Byte → List Byte → List Byte) (hLen : Nat)
    (password arr : List Byte) (off len cap iterations keyLen : Nat) (key arr1 : List Byte)
    (hb : blockCount keyLen hLen = 1)
    (h : pbkdf2 prf hLen password arr off len cap iterations keyLen = some (key, arr1)) :
    arr1 = (goAppend arr off len cap (blockIndexBytes 1)).1 := by
  unfold pbkdf2 at h
  split at h
  · simp at h
  · rw [hb] at h
    rcases hg : goAppend arr off len cap (blockIndexBytes 1) with ⟨a, d⟩
    simp only [outerLoop, hg] at h
    split at h
    · simp at h
    · rename_i dk a1 heq
      split at heq
      · simp at heq
      · simp only [Option.some.injEq, Prod.mk.injEq] at heq h
        rw [← h.2, ← heq.2]

theorem deriveStage_spec (hmacSha1 : List Byte → List Byte → List Byte)
    (hprf : ∀ k d, (hmacSha1 k d).length = 20) (file : List Byte) (spare : Nat)
    (password : List Byte) (h16 : 16 ≤ file.length) :
    ∃ enc, deriveStage hmacSha1 file spare password
        = some (refPBKDF2 hmacSha1 20 password (file.take 16) 100 16, file.take 16, enc)
      ∧ enc.length = file.length - 16
      ∧ (20 ≤ file.length + spare →
          enc = ([0, 0, 0, 1] ++ file.drop 20).take (file.length - 16))
      ∧ (file.length + spare < 20 → enc = file.drop 16) := by
  obtain ⟨arr1, h1, hl1, hp1⟩ := pbkdf2_run hmacSha1 20 password
    (file ++ List.replicate spare 0) 0 16 (file.length + spare) 100 16 (by decide) hprf
    (by omega) (by simp)
  have harr := pbkdf2_arr_one_block hmacSha1 20 password (file ++ List.replicate spare 0)
    0 16 (file.length + spare) 100 16 _ arr1 (by decide) h1
  have hsalt : sliceBytes (file ++ List.replicate spare 0) 0 16 = file.take 16 := by
    simp [sliceBytes, List.take_append_of_le_length h16]
  have hiv : sliceBytes arr1 0 16 = file.take 16 := by
    rw [sliceBytes_eq_of_front arr1 _ 0 16 hp1, hsalt]
  refine ⟨sliceBytes arr1 16 (file.length - 16), ?_, ?_, ?_, ?_⟩
  · unfold deriveStage
    simp only [h1, hsalt, hiv]
  · simp [sliceBytes, hl1]
    omega
  · intro h20
    rw [harr]
    unfold goAppend
    rw [if_pos (by simpa [blockIndexBytes] using h20)]
    unfold sliceBytes
    have hb : blockIndexBytes 1 = [0, 0, 0, 1] := by decide
    rw [hb, List.append_assoc, List.drop_left' (by simp; omega)]
    simp only [Nat.zero_add, List.length_cons, List.length_nil]
    rw [List.drop_append_eq_append_drop, ← List.append_assoc,
      List.take_append_of_le_length (by simp; omega)]
  · intro h20
    rw [harr]
    unfold goAppend
    rw [if_neg (by simp [blockIndexBytes]; omega)]
    unfold sliceBytes
    rw [List.drop_append_of_le_length h16, List.take_append_of_le_length (by simp)]
    rw [List.take_of_length_le (by simp)]

/-- C3: whenever the buffer holding the file has room for 20 bytes, the
ciphertext that `decryptES3` hands to the CBC decrypter starts with the bytes
`00 00 00 01` that `pbkdf2` appended to its salt, whatever the file held there;
the IV is left as it was read. -/
theorem deriveStage_overwrites_ciphertext (hmacSha1 : List Byte → List Byte → List Byte)
    (hprf : ∀ k d, (hmacSha1 k d).length = 20) (file : List Byte) (spare : Nat)
    (password : List Byte) (h16 : 16 ≤ file.length) (hcap : 20 ≤ file.length + spare) :
    deriveStage hmacSha1 file spare password
      = some (refPBKDF2 hmacSha1 20 password (file.take 16) 100 16, file.take 16,
          ([0, 0, 0, 1] ++ file.drop 20).take (file.length - 16)) := by
  obtain ⟨enc, h, _, h20, _⟩ := deriveStage_spec hmacSha1 hprf file spare password h16
  rw [h, h20 hcap]

/-! ## Unpadding -/

theorem unpadStage_ok_take (d r : List Byte) (h : unpadStage d = .ok r) :
    ∃ k, r = d.take k := by
  unfold unpadStage at h
  split at h
  · simp at h
  · dsimp only at h
    split at h
    · simp at h
    · split at h
      · simp at h
      · simp only [Outcome.ok.injEq] at h
        exact ⟨_, h.symm⟩

/-- C5: on a decrypted buffer whose length is a positive multiple of 16 the
unpadding step returns the error `invalid padding` exactly when the last byte
`p` is 0 or above 16; otherwise it returns the first `len - p` bytes, which is
within range and shorter than the buffer; it never panics; and whether it
accepts depends on the last byte alone. -/
theorem unpadStage_boundary (d : List Byte) (p : Nat) (hpos : 0 < d.length)
    (h16 : d.length % 16 = 0) (hp : d.getLast? = some p) :
    (unpadStage d = .error "invalid padding" ↔ (p = 0 ∨ 16 < p))
      ∧ (¬ (p = 0 ∨ 16 < p) →
          unpadStage d = .ok (d.take (d.length - p)) ∧ d.length - p < d.length
            ∧ (d.take (d.length - p)).length = d.length - p)
      ∧ (∀ msg, unpadStage d ≠ .panic msg)
      ∧ (∀ d2 : List Byte, 0 < d2.length → d2.length % 16 = 0 → d2.getLast? = some p →
          ((∃ r, unpadStage d2 = .ok r) ↔ (∃ r, unpadStage d = .ok r))) := by
  have hgen : ∀ e : List Byte, 0 < e.length → e.length % 16 = 0 → e.getLast? = some p →
      ((p = 0 ∨ 16 < p) → unpadStage e = .error "invalid padding")
        ∧ (¬ (p = 0 ∨ 16 < p) → unpadStage e = .ok (e.take (e.length - p))) := by
    intro e hepos he16 hep
    have hlen : 16 ≤ e.length := by omega
    constructor
    · intro hbad
      unfold unpadStage
      rw [hep]
      simp only
      rw [if_pos (by omega)]
    · intro hgood
      unfold unpadStage
      rw [hep]
      simp only
      rw [if_neg (by omega), if_neg (by omega)]
  obtain ⟨hbad, hgood⟩ := hgen d hpos h16 hp
  refine ⟨⟨?_, hbad⟩, ?_, ?_, ?_⟩
  · intro herr
    by_contra hn
    rw [hgood hn] at herr
    cases herr
  · intro hn
    refine ⟨hgood hn, by omega, ?_⟩
    rw [List.length_take]
    omega
  · intro msg hpanic
    by_cases hc : p = 0 ∨ 16 < p
    · rw [hbad hc] at hpanic
      cases hpanic
    · rw [hgood hc] at hpanic
      cases hpanic
  · intro d2 h2pos h216 h2p
    obtain ⟨hbad2, hgood2⟩ := hgen d2 h2pos h216 h2p
    by_cases hc : p = 0 ∨ 16 < p
    · rw [hbad hc, hbad2 hc]
    · rw [hgood hc, hgood2 hc]
      simp

/-! ## Files of a bad length -/

/-- C4: a file of exactly 16 bytes, or one whose ciphertext part is not a whole
number of blocks, makes `decryptES3` panic instead of returning an error; only
files shorter than 16 bytes get the error `encrypted data too short`. -/
theorem decryptES3_panics_on_bad_length (hmacSha1 : List Byte → List Byte → List Byte)
    (aesDecrypt : List Byte → List Byte → List Byte)
    (gzipHeader : List Byte → Bool) (gzipReadAll : List Byte → Option (List Byte))
    (file : List Byte) (spare : Nat) (password : List Byte)
    (hprf : ∀ k d, (hmacSha1 k d).length = 20)
    (hbad : file.length = 16 ∨ (16 < file.length ∧ file.length % 16 ≠ 0)) :
    decryptES3 hmacSha1 aesDecrypt gzipHeader gzipReadAll file spare password
      = .panic (if file.length = 16 then "index out of range [-1]"
          else "crypto/cipher: input not full blocks") := by
  obtain ⟨enc, hd, hel, _, _⟩ := deriveStage_spec hmacSha1 hprf file spare password
    (by omega)
  have hkl := refPBKDF2_length hmacSha1 20 password (file.take 16) 100 16 (by decide) hprf
  have hivl : (file.take 16).length = 16 := by
    rw [List.length_take]
    omega
  unfold decryptES3 decryptUnpad
  rw [if_neg (by omega), hd]
  simp only [hkl, hivl]
  rcases hbad with h | ⟨h1, h2⟩
  · have he : enc = [] := List.eq_nil_of_length_eq_zero (by omega)
    subst he
    simp [h, cbcDecrypt, unpadStage]
  · have : ¬ file.length = 16 := by omega
    have hm : ¬ (file.length - 16) % 16 = 0 := by omega
    simp [hel, this, hm]

/-! ## The round trip through the reference encryptor -/

theorem xorBytes_cancel : ∀ (a b : List Byte), a.length = b.length →
    xorBytes (xorBytes a b) b = a
  | [], [], _ => rfl
  | [], _ :: _, h => by simp at h
  | _ :: _, [], h => by simp at h
  | x :: a, y :: b, h => by
    have ih := xorBytes_cancel a b (by simpa using h)
    unfold xorBytes at ih ⊢
    simp only [List.zipWith_cons_cons, List.cons.injEq]
    exact ⟨by rw [Nat.xor_assoc, Nat.xor_self, Nat.xor_zero], ih⟩

theorem pkcs7Pad_length (p : List Byte) :
    (pkcs7Pad p).length = p.length + (16 - p.length % 16) := by
  simp [pkcs7Pad]

theorem pkcs7Pad_take (p : List Byte) (h : 16 ≤ p.length) :
    (pkcs7Pad p).take 16 = p.take 16 := by
  unfold pkcs7Pad
  rw [List.take_append_of_le_length h]

/-- C1: the round trip through the reference encryptor fails.  For a plaintext
of at least 16 bytes whose ciphertext does not happen to begin with
`00 00 00 01`, the decrypt-and-unpad stage of `decryptES3` applied to the
reference encryption never returns the plaintext: the first ciphertext block
was overwritten during key derivation. -/
theorem decryptUnpad_roundtrip_fails (hmacSha1 : List Byte → List Byte → List Byte)
    (aesEncrypt aesDecrypt : List Byte → List Byte → List Byte)
    (plaintext password iv : List Byte) (spare : Nat)
    (hprf : ∀ k d, (hmacSha1 k d).length = 20)
    (henc : ∀ k b, k.length = 16 → b.length = 16 → (aesEncrypt k b).length = 16)
    (hdec : ∀ k b, k.length = 16 → b.length = 16 → (aesDecrypt k b).length = 16)
    (hinv : ∀ k b, k.length = 16 → b.length = 16 → aesEncrypt k (aesDecrypt k b) = b)
    (hiv : iv.length = 16) (hp : 16 ≤ plaintext.length)
    (hfirst : ((refEncrypt hmacSha1 aesEncrypt plaintext password iv).drop 16).take 4
      ≠ [0, 0, 0, 1]) :
    decryptUnpad hmacSha1 aesDecrypt
      (refEncrypt hmacSha1 aesEncrypt plaintext password iv) spare password
      ≠ .ok plaintext := by
  intro hok
  have hkl := refPBKDF2_length hmacSha1 20 password iv 100 16 (by decide) hprf
  -- the shape of the file
  obtain ⟨m, hm⟩ : ∃ m, (pkcs7Pad plaintext).length / 16 = m + 1 := by
    have := pkcs7Pad_length plaintext
    exact ⟨(pkcs7Pad plaintext).length / 16 - 1, by omega⟩
  have hql : 16 ≤ (pkcs7Pad plaintext).length := by
    have := pkcs7Pad_length plaintext
    omega
  obtain ⟨c1, rest, hfile, hc1, hc1l⟩ : ∃ c1 rest,
      refEncrypt hmacSha1 aesEncrypt plaintext password iv = iv ++ (c1 ++ rest)
        ∧ c1 = aesEncrypt (refPBKDF2 hmacSha1 20 password iv 100 16)
            (xorBytes (plaintext.take 16) iv)
        ∧ c1.length = 16 := by
    refine ⟨aesEncrypt (refPBKDF2 hmacSha1 20 password iv 100 16)
        (xorBytes (plaintext.take 16) iv),
      cbcEncrypt (aesEncrypt (refPBKDF2 hmacSha1 20 password iv 100 16)) m
        (aesEncrypt (refPBKDF2 hmacSha1 20 password iv 100 16)
          (xorBytes (plaintext.take 16) iv)) ((pkcs7Pad plaintext).drop 16), ?_, rfl, ?_⟩
    · unfold refEncrypt
      simp only [hm, cbcEncrypt]
      rw [pkcs7Pad_take plaintext hp]
    · apply henc _ _ hkl
      rw [xorBytes_length, List.length_take]
      omega
  rw [hfile] at hok hfirst
  rw [List.drop_left' hiv, List.take_append_of_le_length (by omega)] at hfirst
  -- the state after key derivation
  have hfl : 20 ≤ (iv ++ (c1 ++ rest)).length := by
    simp
    omega
  obtain ⟨enc0, hds, _, henc0, _⟩ := deriveStage_spec hmacSha1 hprf (iv ++ (c1 ++ rest)) spare
    password (by omega)
  rw [henc0 (by omega)] at hds
  have htk : (iv ++ (c1 ++ rest)).take 16 = iv := List.take_left' hiv
  have hdr : (iv ++ (c1 ++ rest)).drop 20 = c1.drop 4 ++ rest := by
    rw [show 20 = iv.length + 4 by omega, List.drop_append,
      List.drop_append_of_le_length (by omega)]
  have henc2 : ([0, 0, 0, 1] ++ (iv ++ (c1 ++ rest)).drop 20).take
      ((iv ++ (c1 ++ rest)).length - 16) = ([0, 0, 0, 1] ++ c1.drop 4) ++ rest := by
    rw [hdr, ← List.append_assoc]
    apply List.take_of_length_le
    simp
    omega
  rw [htk, henc2] at hds
  have hc1l2 : ([0, 0, 0, 1] ++ c1.drop 4 : List Byte).length = 16 := by
    simp
    omega
  -- run the decrypt-and-unpad stage
  unfold decryptUnpad at hok
  rw [if_neg (by omega), hds] at hok
  simp only [hkl, hiv] at hok
  obtain ⟨k, hk⟩ : ∃ k, (([0, 0, 0, 1] ++ c1.drop 4) ++ rest).length / 16 = k + 1 := by
    refine ⟨(([0, 0, 0, 1] ++ c1.drop 4) ++ rest).length / 16 - 1, ?_⟩
    rw [List.length_append, hc1l2]
    omega
  rw [hk] at hok
  split at hok
  · simp at hok
  · split at hok
    · simp at hok
    · split at hok
      · simp at hok
      · simp only [cbcDecrypt] at hok
        rw [List.take_left' hc1l2] at hok
        obtain ⟨j, hj⟩ := unpadStage_ok_take _ _ hok
        -- the first decrypted block is the first block of the plaintext
        have hb1 : (xorBytes (aesDecrypt (refPBKDF2 hmacSha1 20 password iv 100 16)
            ([0, 0, 0, 1] ++ c1.drop 4)) iv).length = 16 := by
          rw [xorBytes_length, hdec _ _ hkl hc1l2, hiv]
          rfl
        have hj16 : 16 ≤ j := by
          have := congrArg List.length hj
          rw [List.length_take] at this
          omega
        have hpt : plaintext.take 16 = xorBytes (aesDecrypt
            (refPBKDF2 hmacSha1 20 password iv 100 16) ([0, 0, 0, 1] ++ c1.drop 4)) iv := by
          rw [hj, List.take_take, Nat.min_eq_left hj16,
            List.take_append_of_le_length (by omega), List.take_of_length_le (by omega)]
        have hcc : aesEncrypt (refPBKDF2 hmacSha1 20 password iv 100 16)
            (xorBytes (plaintext.take 16) iv) = [0, 0, 0, 1] ++ c1.drop 4 := by
          rw [hpt, xorBytes_cancel _ _ (by rw [hdec _ _ hkl hc1l2, hiv]),
            hinv _ _ hkl hc1l2]
        rw [← hc1] at hcc
        apply hfirst
        rw [hcc]
        rfl

/-! ## The toy primitives satisfy what is assumed of the real ones -/

theorem toyHmac_length (key data : List Byte) : (toyHmac key data).length = 20 := by
  simp [toyHmac]

theorem toyAes_length (key block : List Byte) (hk : key.length = 16) (hb : block.length = 16) :
    (toyAes key block).length = 16 := by
  simp [toyAes, xorBytes_length, hk, hb]

theorem toyAes_involution (key block : List Byte) (hk : key.length = 16)
    (hb : block.length = 16) : toyAes key (toyAes key block) = block := by
  unfold toyAes
  exact xorBytes_cancel block key (by rw [hk, hb])

/-! ## Concrete instances -/

theorem decryptUnpad_roundtrip_fails_witness :
    (∀ k d : List Byte, (toyHmac k d).length = 20)
      ∧ (List.replicate 16 7 : List Byte).length = 16
      ∧ 16 ≤ (List.replicate 16 65 : List Byte).length
      ∧ ((refEncrypt toyHmac toyAes (List.replicate 16 65) [112, 119]
          (List.replicate 16 7)).drop 16).take 4 ≠ [0, 0, 0, 1]
      ∧ decryptUnpad toyHmac toyAes
          (refEncrypt toyHmac toyAes (List.replicate 16 65) [112, 119] (List.replicate 16 7))
          480 [112, 119] ≠ .ok (List.replicate 16 65) :=
  ⟨toyHmac_length, by decide, by decide, by decide,
    decryptUnpad_roundtrip_fails toyHmac toyAes toyAes (List.replicate 16 65) [112, 119]
      (List.replicate 16 7) 480 toyHmac_length toyAes_length toyAes_length toyAes_involution
      (by decide) (by decide) (by decide)⟩

theorem pbkdf2_eq_reference_witness :
    0 < 20 ∧ (∀ k d : List Byte, (toyHmac k d).length = 20) ∧ 1 ≤ 100 ∧ 3 ≤ 8
      ∧ 0 + 8 ≤ ([1, 2, 3, 4, 5, 6, 7, 8] : List Byte).length
      ∧ ((pbkdf2 toyHmac 20 [9] [1, 2, 3, 4, 5, 6, 7, 8] 0 3 8 100 16).map Prod.fst
          = some (refPBKDF2 toyHmac 20 [9] (sliceBytes [1, 2, 3, 4, 5, 6, 7, 8] 0 3) 100 16)
        ∧ (refPBKDF2 toyHmac 20 [9] (sliceBytes [1, 2, 3, 4, 5, 6, 7, 8] 0 3) 100 16).length = 16
        ∧ blockCount 16 20 = 1) :=
  ⟨by decide, toyHmac_length, by decide, by decide, by decide,
    pbkdf2_eq_reference toyHmac 20 [9] [1, 2, 3, 4, 5, 6, 7, 8] 0 3 8 100 16 (by decide)
      toyHmac_length (by decide) (by decide) (by decide)⟩

theorem deriveStage_overwrites_ciphertext_witness :
    (∀ k d : List Byte, (toyHmac k d).length = 20)
      ∧ 16 ≤ (List.replicate 32 170 : List Byte).length
      ∧ 20 ≤ (List.replicate 32 170 : List Byte).length + 480
      ∧ deriveStage toyHmac (List.replicate 32 170) 480 [112, 119]
        = some (refPBKDF2 toyHmac 20 [112, 119] (List.replicate 16 170) 100 16,
            List.replicate 16 170, [0, 0, 0, 1] ++ List.replicate 12 170) :=
  ⟨toyHmac_length, by decide, by decide,
    deriveStage_overwrites_ciphertext toyHmac toyHmac_length (List.replicate 32 170) 480
      [112, 119] (by decide) (by decide)⟩

theorem decryptES3_panics_on_bad_length_witness :
    (∀ k d : List Byte, (toyHmac k d).length = 20)
      ∧ ((List.replicate 16 7 : List Byte).length = 16
        ∨ (16 < (List.replicate 16 7 : List Byte).length
          ∧ (List.replicate 16 7 : List Byte).length % 16 ≠ 0))
      ∧ decryptES3 toyHmac toyAes (fun _ => false) (fun _ => none) (List.replicate 16 7) 496
          [112, 119] = .panic "index out of range [-1]" :=
  ⟨toyHmac_length, Or.inl (by decide),
    decryptES3_panics_on_bad_length toyHmac toyAes (fun _ => false) (fun _ => none)
      (List.replicate 16 7) 496 [112, 119] toyHmac_length (Or.inl (by decide))⟩

theorem unpadStage_boundary_witness :
    0 < ([1, 2, 3, 4, 5, 6, 7, 8, 9, 10, 11, 12, 13, 14, 15, 3] : List Byte).length
      ∧ ([1, 2, 3, 4, 5, 6, 7, 8, 9, 10, 11, 12, 13, 14, 15, 3] : List Byte).length % 16 = 0
      ∧ ([1, 2, 3, 4, 5, 6, 7, 8, 9, 10, 11, 12, 13, 14, 15, 3] : List Byte).getLast? = some 3
      ∧ unpadStage [1, 2, 3, 4, 5, 6, 7, 8, 9, 10, 11, 12, 13, 14, 15, 3]
        = .ok [1, 2, 3, 4, 5, 6, 7, 8, 9, 10, 11, 12, 13] :=
  ⟨by decide, by decide, by decide,
    ((unpadStage_boundary [1, 2, 3, 4, 5, 6, 7, 8, 9, 10, 11, 12, 13, 14, 15, 3] 3
      (by decide) (by decide) (by decide)).2.1 (by decide)).1⟩

/-! ## Unfolding the normalizer -/

theorem convertAt_eq (key : String) (fields : List (String × JVal)) :
    convertAt key fields = (lookupField key fields).map convertValue := by
  induction fields with
  | nil => simp [convertAt, lookupField]
  | cons kv rest ih =>
    obtain ⟨k, v⟩ := kv
    by_cases h : k = key <;> simp [convertAt, lookupField, h, ih]

theorem convertItemsAt_none (key : String) (fields : List (String × JVal))
    (h : lookupField key fields = none) : convertItemsAt key fields = none := by
  induction fields with
  | nil => simp [convertItemsAt]
  | cons kv rest ih =>
    obtain ⟨k, v⟩ := kv
    by_cases hk : k = key
    · simp [lookupField, hk] at h
    · simp only [lookupField, hk, if_false] at h
      simp [convertItemsAt, hk, ih h]

theorem lookupField_convertFields (key : String) (fields : List (String × JVal)) :
    lookupField key (convertFields fields) = (lookupField key fields).map convertValue := by
  induction fields with
  | nil => simp [convertFields, lookupField]
  | cons kv rest ih =>
    obtain ⟨k, v⟩ := kv
    by_cases h : k = key <;> simp [convertFields, lookupField, h, ih]

theorem keysOf_convertFields (fields : List (String × JVal)) :
    keysOf (convertFields fields) = keysOf fields := by
  induction fields with
  | nil => simp [convertFields, keysOf]
  | cons kv rest ih =>
    obtain ⟨k, v⟩ := kv
    simp only [keysOf] at ih
    simp [convertFields, keysOf, ih]

theorem convertValue_obj_tagged (fields : List (String × JVal)) (typeStr : String)
    (ht : lookupField "__type" fields = some (.str typeStr)) :
    convertValue (.obj fields)
      = match lookupField "value" fields with
        | some value => convertValue value
        | none => .null := by
  rw [convertValue, ht]
  simp only
  rw [convertAt_eq]
  cases hv : lookupField "value" fields with
  | some value => simp
  | none => simp [convertItemsAt_none "value" fields hv]

theorem convertValue_obj_untagged (fields : List (String × JVal))
    (ht : hasStringTag fields = false) :
    convertValue (.obj fields) = .obj (convertFields fields) := by
  rw [convertValue]
  unfold hasStringTag at ht
  split
  · rename_i t heq
    rw [heq] at ht
    simp at ht
  · rfl

mutual
theorem convertValue_of_plain : ∀ v : JVal, isPlain v = true → convertValue v = v
  | .obj fields, h => by
    simp only [isPlain, Bool.and_eq_true, Bool.not_eq_true'] at h
    rw [convertValue_obj_untagged fields h.1, convertFields_of_plain fields h.2]
  | .arr items, h => by
    simp only [isPlain] at h
    rw [convertValue, convertItems_of_plain items h]
  | .null, _ => rfl
  | .bool _, _ => rfl
  | .num _, _ => rfl
  | .str _, _ => rfl
theorem convertItems_of_plain : ∀ items : List JVal, isPlainItems items = true →
    convertItems items = items
  | [], _ => by rw [convertItems]
  | v :: rest, h => by
    simp only [isPlainItems, Bool.and_eq_true] at h
    rw [convertItems, convertValue_of_plain v h.1, convertItems_of_plain rest h.2]
theorem convertFields_of_plain : ∀ fields : List (String × JVal),
    isPlainFields fields = true → convertFields fields = fields
  | [], _ => by rw [convertFields]
  | (k, v) :: rest, h => by
    simp only [isPlainFields, Bool.and_eq_true] at h
    rw [convertFields, convertValue_of_plain v h.1, convertFields_of_plain rest h.2]
end

/-- C6: an object with a string-valued `__type` key and a `value` key is
replaced by the conversion of its `value`, whatever other keys it has; when
that payload is free of wrappers the result is the payload itself. -/
theorem convertValue_unwraps (fields : List (String × JVal)) (typeStr : String) (value : JVal)
    (ht : lookupField "__type" fields = some (.str typeStr))
    (hv : lookupField "value" fields = some value) :
    convertValue (.obj fields) = convertValue value
      ∧ (isPlain value = true → convertValue (.obj fields) = value) := by
  have h := convertValue_obj_tagged fields typeStr ht
  rw [hv] at h
  simp only at h
  exact ⟨h, fun hp => by rw [h, convertValue_of_plain value hp]⟩

/-- C9: an object with a string-valued `__type` key and no `value` key is
converted to null, whatever its other keys and whatever the `__type` string. -/
theorem convertValue_unrecognized_null (fields : List (String × JVal)) (typeStr : String)
    (ht : lookupField "__type" fields = some (.str typeStr))
    (hv : lookupField "value" fields = none) :
    convertValue (.obj fields) = .null := by
  have h := convertValue_obj_tagged fields typeStr ht
  rw [hv] at h
  exact h

/-! ## Wrappers are resolved -/

theorem isPlainFields_lookup (key : String) (fields : List (String × JVal))
    (h : isPlainFields fields = true) (v : JVal) (hv : lookupField key fields = some v) :
    isPlain v = true := by
  induction fields with
  | nil => simp [lookupField] at hv
  | cons kv rest ih =>
    obtain ⟨k, x⟩ := kv
    simp only [isPlainFields, Bool.and_eq_true] at h
    by_cases hk : k = key
    · simp only [lookupField, hk, if_true, Option.some.injEq] at hv
      rw [← hv]
      exact h.1
    · simp only [lookupField, hk, if_false] at hv
      exact ih h.2 hv

mutual
theorem convertValue_resolves : ∀ v : JVal, noObjectTag v = true →
    isPlain (convertValue v) = true
  | .obj fields, h => by
    simp only [noObjectTag, Bool.and_eq_true, Bool.not_eq_true'] at h
    have hf := convertFields_resolves fields h.2
    cases hl : lookupField "__type" fields with
    | none =>
      have hs : hasStringTag fields = false := by simp [hasStringTag, hl]
      rw [convertValue_obj_untagged fields hs]
      simp only [isPlain, Bool.and_eq_true, Bool.not_eq_true']
      refine ⟨?_, hf⟩
      simp [hasStringTag, lookupField_convertFields, hl]
    | some t =>
      cases t with
      | str typeStr =>
        rw [convertValue_obj_tagged fields typeStr hl]
        cases hv : lookupField "value" fields with
        | none => rfl
        | some value =>
          apply isPlainFields_lookup "value" (convertFields fields) hf
          rw [lookupField_convertFields, hv]
          rfl
      | obj o =>
        have := h.1
        simp [hasObjectTag, hl] at this
      | null =>
        have hs : hasStringTag fields = false := by simp [hasStringTag, hl]
        rw [convertValue_obj_untagged fields hs]
        simp only [isPlain, Bool.and_eq_true, Bool.not_eq_true']
        refine ⟨?_, hf⟩
        simp [hasStringTag, lookupField_convertFields, hl, convertValue]
      | bool b =>
        have hs : hasStringTag fields = false := by simp [hasStringTag, hl]
        rw [convertValue_obj_untagged fields hs]
        simp only [isPlain, Bool.and_eq_true, Bool.not_eq_true']
        refine ⟨?_, hf⟩
        simp [hasStringTag, lookupField_convertFields, hl, convertValue]
      | num n =>
        have hs : hasStringTag fields = false := by simp [hasStringTag, hl]
        rw [convertValue_obj_untagged fields hs]
        simp only [isPlain, Bool.and_eq_true, Bool.not_eq_true']
        refine ⟨?_, hf⟩
        simp [hasStringTag, lookupField_convertFields, hl, convertValue]
      | arr items =>
        have hs : hasStringTag fields = false := by simp [hasStringTag, hl]
        rw [convertValue_obj_untagged fields hs]
        simp only [isPlain, Bool.and_eq_true, Bool.not_eq_true']
        refine ⟨?_, hf⟩
        simp [hasStringTag, lookupField_convertFields, hl, convertValue]
  | .arr items, h => by
    simp only [noObjectTag] at h
    rw [convertValue]
    simp only [isPlain]
    exact convertItems_resolves items h
  | .null, _ => rfl
  | .bool _, _ => rfl
  | .num _, _ => rfl
  | .str _, _ => rfl
theorem convertItems_resolves : ∀ items : List JVal, noObjectTagItems items = true →
    isPlainItems (convertItems items) = true
  | [], _ => rfl
  | v :: rest, h => by
    simp only [noObjectTagItems, Bool.and_eq_true] at h
    simp only [convertItems, isPlainItems, Bool.and_eq_true]
    exact ⟨convertValue_resolves v h.1, convertItems_resolves rest h.2⟩
theorem convertFields_resolves : ∀ fields : List (String × JVal),
    noObjectTagFields fields = true → isPlainFields (convertFields fields) = true
  | [], _ => rfl
  | (k, v) :: rest, h => by
    simp only [noObjectTagFields, Bool.and_eq_true] at h
    simp only [convertFields, isPlainFields, Bool.and_eq_true]
    exact ⟨convertValue_resolves v h.1, convertFields_resolves rest h.2⟩
end

/-! ## Key order -/

theorem ltCodes_total : ∀ x y : List Nat, ltCodes x y = false → x ≠ y → ltCodes y x = true
  | [], [], _, hne => absurd rfl hne
  | [], _ :: _, h, _ => by simp [ltCodes] at h
  | _ :: _, [], _, _ => by simp [ltCodes]
  | a :: as, b :: bs, h, hne => by
    simp only [ltCodes, Bool.or_eq_false_iff, decide_eq_false_iff_not, Bool.and_eq_false_iff,
      Nat.not_lt] at h
    simp only [ltCodes, Bool.or_eq_true, decide_eq_true_eq, Bool.and_eq_true]
    by_cases hab : a = b
    · subst hab
      right
      refine ⟨rfl, ltCodes_total as bs ?_ ?_⟩
      · rcases h.2 with h2 | h2
        · exact absurd rfl h2
        · exact h2
      · intro heq
        exact hne (by rw [heq])
    · left
      omega

theorem keyLt_total (a b : String) (h : keyLt a b = false) (hne : a ≠ b) : keyLt b a = true := by
  apply ltCodes_total _ _ h
  intro heq
  apply hne
  apply String.ext
  have hinj : Function.Injective Char.toNat := by
    intro c d hcd
    rw [← Char.ofNat_toNat c, ← Char.ofNat_toNat d, hcd]
  exact List.map_injective_iff.2 hinj heq

theorem ascending_cons_mapInsert (k : String) (v : JVal) :
    ∀ (m : List (String × JVal)) (k0 : String), keyLt k0 k = true →
      ascending (k0 :: keysOf m) = true → ascending (k0 :: keysOf (mapInsert k v m)) = true := by
  intro m
  induction m with
  | nil =>
    intro k0 h0 _
    simp [mapInsert, keysOf, ascending, h0]
  | cons kv rest ih =>
    obtain ⟨k1, v1⟩ := kv
    intro k0 h0 hasc
    simp only [keysOf, List.map_cons, ascending, Bool.and_eq_true] at hasc
    by_cases h1 : keyLt k k1 = true
    · rw [mapInsert, if_pos h1]
      simp only [keysOf, List.map_cons, ascending, Bool.and_eq_true]
      exact ⟨h0, h1, hasc.2⟩
    · by_cases h2 : k = k1
      · rw [mapInsert, if_neg h1, if_pos h2]
        subst h2
        simp only [keysOf, List.map_cons, ascending, Bool.and_eq_true]
        exact ⟨h0, hasc.2⟩
      · have h3 := keyLt_total k k1 (by simpa using h1) h2
        rw [mapInsert, if_neg h1, if_neg h2]
        simp only [keysOf, List.map_cons, ascending, Bool.and_eq_true]
        exact ⟨hasc.1, ih k1 h3 hasc.2⟩

theorem ascending_mapInsert (k : String) (v : JVal) (m : List (String × JVal))
    (h : ascending (keysOf m) = true) : ascending (keysOf (mapInsert k v m)) = true := by
  cases m with
  | nil => simp [mapInsert, keysOf, ascending]
  | cons kv rest =>
    obtain ⟨k1, v1⟩ := kv
    by_cases h1 : keyLt k k1 = true
    · rw [mapInsert, if_pos h1]
      simp only [keysOf, List.map_cons, ascending, Bool.and_eq_true]
      exact ⟨h1, h⟩
    · by_cases h2 : k = k1
      · rw [mapInsert, if_neg h1, if_pos h2]
        subst h2
        exact h
      · have h3 := keyLt_total k k1 (by simpa using h1) h2
        rw [mapInsert, if_neg h1, if_neg h2]
        exact ascending_cons_mapInsert k v rest k1 h3 h

theorem keysAscendingFields_mapInsert (k : String) (v : JVal) (m : List (String × JVal))
    (hv : keysAscending v = true) (h : keysAscendingFields m = true) :
    keysAscendingFields (mapInsert k v m) = true := by
  induction m with
  | nil => simp [mapInsert, keysAscendingFields, hv]
  | cons kv rest ih =>
    obtain ⟨k1, v1⟩ := kv
    simp only [keysAscendingFields, Bool.and_eq_true] at h
    by_cases h1 : keyLt k k1 = true
    · rw [mapInsert, if_pos h1]
      simp [keysAscendingFields, hv, h.1, h.2]
    · by_cases h2 : k = k1
      · rw [mapInsert, if_neg h1, if_pos h2]
        simp [keysAscendingFields, hv, h.2]
      · rw [mapInsert, if_neg h1, if_neg h2]
        simp [keysAscendingFields, h.1, ih h.2]

theorem mem_keysOf_mapInsert (k : String) (v : JVal) (m : List (String × JVal)) (x : String) :
    x ∈ keysOf (mapInsert k v m) ↔ x = k ∨ x ∈ keysOf m := by
  induction m with
  | nil => simp [mapInsert, keysOf]
  | cons kv rest ih =>
    obtain ⟨k1, v1⟩ := kv
    by_cases h1 : keyLt k k1 = true
    · rw [mapInsert, if_pos h1]
      simp [keysOf]
    · by_cases h2 : k = k1
      · rw [mapInsert, if_neg h1, if_pos h2]
        subst h2
        simp [keysOf]
      · rw [mapInsert, if_neg h1, if_neg h2]
        have hc : keysOf ((k1, v1) :: mapInsert k v rest) = k1 :: keysOf (mapInsert k v rest) := rfl
        have hc2 : keysOf ((k1, v1) :: rest) = k1 :: keysOf rest := rfl
        rw [hc, hc2, List.mem_cons, List.mem_cons, ih]
        tauto

theorem hasKey_iff (k : String) (m : List (String × JVal)) :
    hasKey k m = true ↔ k ∈ keysOf m := by
  induction m with
  | nil => simp [hasKey, lookupField, keysOf]
  | cons kv rest ih =>
    obtain ⟨k1, v1⟩ := kv
    simp only [hasKey, keysOf] at ih
    by_cases h : k1 = k
    · simp [hasKey, lookupField, keysOf, h]
    · have h' : ¬ k = k1 := fun e => h e.symm
      simp [hasKey, lookupField, keysOf, h, h', ih]

theorem mem_keysOf_goMap (members : List (String × JVal)) (x : String) :
    x ∈ keysOf (goMap members) ↔ x ∈ keysOf members := by
  induction members with
  | nil => simp [goMap]
  | cons kv rest ih =>
    obtain ⟨k, v⟩ := kv
    rw [goMap]
    split
    · rename_i hk
      rw [hasKey_iff] at hk
      rw [ih]
      simp only [keysOf, List.map_cons, List.mem_cons]
      constructor
      · exact fun h => Or.inr h
      · rintro (h | h)
        · subst h
          exact ih.1 hk
        · exact h
    · rw [mem_keysOf_mapInsert, ih]
      simp [keysOf]

mutual
theorem goValue_ascending : ∀ v : JVal, keysAscending (goValue v) = true
  | .obj members => by
    rw [goValue]
    simp only [keysAscending, Bool.and_eq_true]
    exact goMap_ascending members
  | .arr items => by
    rw [goValue]
    simp only [keysAscending]
    exact goItems_ascending items
  | .null => rfl
  | .bool _ => rfl
  | .num _ => rfl
  | .str _ => rfl
theorem goItems_ascending : ∀ items : List JVal, keysAscendingItems (goItems items) = true
  | [] => rfl
  | v :: rest => by
    simp only [goItems, keysAscendingItems, Bool.and_eq_true]
    exact ⟨goValue_ascending v, goItems_ascending rest⟩
theorem goMap_ascending : ∀ members : List (String × JVal),
    ascending (keysOf (goMap members)) = true ∧ keysAscendingFields (goMap members) = true
  | [] => ⟨rfl, rfl⟩
  | (k, v) :: rest => by
    have ih := goMap_ascending rest
    rw [goMap]
    split
    · exact ih
    · exact ⟨ascending_mapInsert k _ _ ih.1,
        keysAscendingFields_mapInsert k _ _ (goValue_ascending v) ih.2⟩
end

theorem keysAscendingFields_lookup (key : String) (fields : List (String × JVal))
    (h : keysAscendingFields fields = true) (v : JVal) (hv : lookupField key fields = some v) :
    keysAscending v = true := by
  induction fields with
  | nil => simp [lookupField] at hv
  | cons kv rest ih =>
    obtain ⟨k, x⟩ := kv
    simp only [keysAscendingFields, Bool.and_eq_true] at h
    by_cases hk : k = key
    · simp only [lookupField, hk, if_true, Option.some.injEq] at hv
      rw [← hv]
      exact h.1
    · simp only [lookupField, hk, if_false] at hv
      exact ih h.2 hv

mutual
theorem convertValue_ascending : ∀ v : JVal, keysAscending v = true →
    keysAscending (convertValue v) = true
  | .obj fields, h => by
    simp only [keysAscending, Bool.and_eq_true] at h
    have hf := convertFields_ascending fields h.2
    by_cases hs : hasStringTag fields = true
    · unfold hasStringTag at hs
      split at hs
      · rename_i typeStr hl
        rw [convertValue_obj_tagged fields typeStr hl]
        cases hv : lookupField "value" fields with
        | none => rfl
        | some value =>
          apply keysAscendingFields_lookup "value" (convertFields fields) hf
          rw [lookupField_convertFields, hv]
          rfl
      · simp at hs
    · rw [convertValue_obj_untagged fields (by simpa using hs)]
      simp only [keysAscending, Bool.and_eq_true]
      exact ⟨by rw [keysOf_convertFields]; exact h.1, hf⟩
  | .arr items, h => by
    simp only [keysAscending] at h
    rw [convertValue]
    simp only [keysAscending]
    exact convertItems_ascending items h
  | .null, _ => rfl
  | .bool _, _ => rfl
  | .num _, _ => rfl
  | .str _, _ => rfl
theorem convertItems_ascending : ∀ items : List JVal, keysAscendingItems items = true →
    keysAscendingItems (convertItems items) = true
  | [], _ => rfl
  | v :: rest, h => by
    simp only [keysAscendingItems, Bool.and_eq_true] at h
    simp only [convertItems, keysAscendingItems, Bool.and_eq_true]
    exact ⟨convertValue_ascending v h.1, convertItems_ascending rest h.2⟩
theorem convertFields_ascending : ∀ fields : List (String × JVal),
    keysAscendingFields fields = true → keysAscendingFields (convertFields fields) = true
  | [], _ => rfl
  | (k, v) :: rest, h => by
    simp only [keysAscendingFields, Bool.and_eq_true] at h
    simp only [convertFields, keysAscendingFields, Bool.and_eq_true]
    exact ⟨convertValue_ascending v h.1, convertFields_ascending rest h.2⟩
end

/-! ## The claims about the normalizer -/

/-- C10: a tree in which no object has a string-valued `__type` key is returned
unchanged by `convertValue`: scalars, arrays (length and order) and objects
(keys and values) alike. -/
theorem convertValue_plain_unchanged (v : JVal) (h : isPlain v = true) :
    convertValue v = v :=
  convertValue_of_plain v h

theorem convertParsed_below_root (members : List (String × JVal))
    (h : noObjectTagFields (goMap members) = true) :
    isPlainFields (rootFields (convertParsed members)) = true
      ∧ rootKeys (convertParsed members) = keysOf (goMap members) := by
  unfold convertParsed
  simp only [rootFields, rootKeys]
  exact ⟨convertFields_resolves (goMap members) h, keysOf_convertFields (goMap members)⟩

theorem convertParsed_sorted (members : List (String × JVal)) :
    keysAscending (convertParsed members) = true
      ∧ ∀ k, k ∈ rootKeys (convertParsed members) ↔ k ∈ keysOf members := by
  have hm := goMap_ascending members
  refine ⟨?_, ?_⟩
  · unfold convertParsed
    simp only [keysAscending, Bool.and_eq_true]
    exact ⟨by rw [keysOf_convertFields]; exact hm.1, convertFields_ascending _ hm.2⟩
  · intro k
    unfold convertParsed
    simp only [rootKeys]
    rw [keysOf_convertFields, mem_keysOf_goMap]

theorem convertValue_unwraps_witness :
    lookupField "__type" [("__type", .str "System.String"), ("value", .str "hi")]
        = some (.str "System.String")
      ∧ lookupField "value" [("__type", .str "System.String"), ("value", .str "hi")]
        = some (.str "hi")
      ∧ convertValue (.obj [("__type", .str "System.String"), ("value", .str "hi")])
        = .str "hi" :=
  ⟨rfl, rfl,
    (convertValue_unwraps [("__type", .str "System.String"), ("value", .str "hi")]
      "System.String" (.str "hi") rfl rfl).2 rfl⟩

theorem convertValue_unrecognized_null_witness :
    lookupField "__type"
        [("__type", .str "System.Collections.Generic.Dictionary"),
          ("other", .obj [("a", .num 4607182418800017408)])]
        = some (.str "System.Collections.Generic.Dictionary")
      ∧ lookupField "value"
        [("__type", .str "System.Collections.Generic.Dictionary"),
          ("other", .obj [("a", .num 4607182418800017408)])] = none
      ∧ convertValue (.obj [("__type", .str "System.Collections.Generic.Dictionary"),
          ("other", .obj [("a", .num 4607182418800017408)])]) = .null :=
  ⟨rfl, rfl,
    convertValue_unrecognized_null
      [("__type", .str "System.Collections.Generic.Dictionary"),
        ("other", .obj [("a", .num 4607182418800017408)])]
      "System.Collections.Generic.Dictionary" rfl rfl⟩

theorem convertValue_plain_unchanged_witness :
    isPlain (.obj [("a", .arr [.num 4607182418800017408, .str "x", .null]),
        ("b", .obj [("c", .bool true)]), ("__type", .num 0)]) = true
      ∧ convertValue (.obj [("a", .arr [.num 4607182418800017408, .str "x", .null]),
        ("b", .obj [("c", .bool true)]), ("__type", .num 0)])
        = .obj [("a", .arr [.num 4607182418800017408, .str "x", .null]),
          ("b", .obj [("c", .bool true)]), ("__type", .num 0)] :=
  ⟨rfl,
    convertValue_plain_unchanged
      (.obj [("a", .arr [.num 4607182418800017408, .str "x", .null]),
        ("b", .obj [("c", .bool true)]), ("__type", .num 0)]) rfl⟩

/-- C7, as stated, fails: the root object is not normalized itself, so it keeps
a string-valued `__type` key; and below the root an object whose `__type` is
itself a wrapper around a string ends up with a string-valued `__type`. -/
theorem convertDotNetJSON_keeps_tags :
    convertDotNetJSON toyUnmarshal
        (ascii "\x7b\"__type\":\"System.String\",\"value\":\"hi\"\x7d")
        = .ok (.obj [("__type", .str "System.String"), ("value", .str "hi")])
      ∧ isPlain (.obj [("__type", .str "System.String"), ("value", .str "hi")]) = false
      ∧ convertDotNetJSON toyUnmarshal
          (ascii "\x7b\"k\":\x7b\"__type\":\x7b\"__type\":\"T\",\"value\":\"s\"\x7d\x7d\x7d")
        = .ok (.obj [("k", .obj [("__type", .str "s")])])
      ∧ isPlain (.obj [("k", .obj [("__type", .str "s")])]) = false :=
  ⟨rfl, rfl, rfl, rfl⟩

/-- C7, amended: when `convertDotNetJSON` parses its input and no object of the
decoded document has an object-valued `__type` key, it succeeds and no object
of the output strictly below the root carries a string-valued `__type` key;
the root keeps its own keys. -/
theorem convertDotNetJSON_resolves_below_root
    (unmarshal : List Byte → Option (List (String × JVal))) (jsonData : List Byte)
    (members : List (String × JVal))
    (hparse : parseRoot unmarshal jsonData = some members)
    (h : noObjectTagFields (goMap members) = true) :
    convertDotNetJSON unmarshal jsonData = .ok (convertParsed members)
      ∧ isPlainFields (rootFields (convertParsed members)) = true
      ∧ rootKeys (convertParsed members) = keysOf (goMap members) := by
  refine ⟨?_, convertParsed_below_root members h⟩
  unfold convertDotNetJSON
  rw [hparse]

/-- C8, as stated, fails: the text with the keys `b, a` comes out with the keys
`a, b`. -/
theorem convertDotNetJSON_reorders_keys :
    parseRoot toyUnmarshal (ascii "\x7b\"b\":1,\"a\":2\x7d")
        = some [("b", .num 4607182418800017408), ("a", .num 4611686018427387904)]
      ∧ convertDotNetJSON toyUnmarshal (ascii "\x7b\"b\":1,\"a\":2\x7d")
        = .ok (.obj [("a", .num 4611686018427387904), ("b", .num 4607182418800017408)])
      ∧ rootKeys (.obj [("a", .num 4611686018427387904), ("b", .num 4607182418800017408)])
        ≠ keysOf [("b", .num 4607182418800017408), ("a", .num 4611686018427387904)] :=
  ⟨rfl, rfl, by decide⟩

/-- C8, amended: in every document that `convertDotNetJSON` returns, the keys
of every object, the root and every nested object, are in strictly ascending
order, whatever their order in the input; and the root has exactly the keys of
the root of the text that was parsed. -/
theorem convertDotNetJSON_keys_sorted
    (unmarshal : List Byte → Option (List (String × JVal))) (jsonData : List Byte)
    (out : JVal) (hok : convertDotNetJSON unmarshal jsonData = .ok out) :
    keysAscending out = true
      ∧ ∃ members, parseRoot unmarshal jsonData = some members
          ∧ ∀ k, k ∈ rootKeys out ↔ k ∈ keysOf members := by
  unfold convertDotNetJSON at hok
  cases hp : parseRoot unmarshal jsonData with
  | none =>
    rw [hp] at hok
    cases hok
  | some members =>
    rw [hp] at hok
    simp only [Outcome.ok.injEq] at hok
    subst hok
    exact ⟨(convertParsed_sorted members).1, members, rfl, (convertParsed_sorted members).2⟩

theorem convertDotNetJSON_resolves_below_root_witness :
    parseRoot toyUnmarshal
        (ascii "\x7b\"k\":\x7b\"__type\":\"System.String\",\"value\":\"hi\"\x7d\x7d")
        = some [("k", .obj [("__type", .str "System.String"), ("value", .str "hi")])]
      ∧ noObjectTagFields
          (goMap [("k", .obj [("__type", .str "System.String"), ("value", .str "hi")])]) = true
      ∧ convertDotNetJSON toyUnmarshal
          (ascii "\x7b\"k\":\x7b\"__type\":\"System.String\",\"value\":\"hi\"\x7d\x7d")
        = .ok (.obj [("k", .str "hi")])
      ∧ isPlainFields (rootFields (.obj [("k", .str "hi")])) = true
      ∧ rootKeys (.obj [("k", .str "hi")]) = ["k"] :=
  ⟨rfl, rfl,
    convertDotNetJSON_resolves_below_root toyUnmarshal
      (ascii "\x7b\"k\":\x7b\"__type\":\"System.String\",\"value\":\"hi\"\x7d\x7d")
      [("k", .obj [("__type", .str "System.String"), ("value", .str "hi")])] rfl rfl⟩

theorem convertDotNetJSON_keys_sorted_witness :
    convertDotNetJSON toyUnmarshal (ascii "\x7b\"b\":1,\"a\":2\x7d")
        = .ok (.obj [("a", .num 4611686018427387904), ("b", .num 4607182418800017408)])
      ∧ keysAscending
          (.obj [("a", .num 4611686018427387904), ("b", .num 4607182418800017408)]) = true
      ∧ ∃ members, parseRoot toyUnmarshal (ascii "\x7b\"b\":1,\"a\":2\x7d") = some members
          ∧ ∀ k, k ∈ rootKeys
              (.obj [("a", .num 4611686018427387904), ("b", .num 4607182418800017408)])
            ↔ k ∈ keysOf members :=
  ⟨rfl,
    convertDotNetJSON_keys_sorted toyUnmarshal (ascii "\x7b\"b\":1,\"a\":2\x7d")
      (.obj [("a", .num 4611686018427387904), ("b", .num 4607182418800017408)]) rfl⟩

theorem indexByte_spec (c : Byte) : ∀ data : List Byte,
    (c ∉ data → indexByte data c = -1)
      ∧ (c ∈ data → ∃ pre post, data = pre ++ c :: post ∧ c ∉ pre
          ∧ indexByte data c = (pre.length : Int))
  | [] => by simp [indexByte]
  | x :: rest => by
    obtain ⟨ih1, ih2⟩ := indexByte_spec c rest
    constructor
    · intro h
      simp only [List.mem_cons, not_or] at h
      have hx : ¬ x = c := fun e => h.1 e.symm
      simp [indexByte, hx, ih1 h.2]
    · intro h
      by_cases hx : x = c
      · exact ⟨[], rest, by simp [hx], by simp, by simp [indexByte, hx]⟩
      · have hr : c ∈ rest := by
          rcases List.mem_cons.1 h with h | h
          · exact absurd h.symm hx
          · exact h
        obtain ⟨pre, post, hd, hp, hi⟩ := ih2 hr
        refine ⟨x :: pre, post, by simp [hd], ?_, ?_⟩
        · simp only [List.mem_cons, not_or]
          exact ⟨fun e => hx e.symm, hp⟩
        · have hne : ¬ ((pre.length : Int) = -1) := by omega
          simp only [indexByte, hx, if_false, hi, hne, List.length_cons]
          push_cast
          rfl

theorem extractJSON_of_mem (data : List Byte) (h : 0x7B ∈ data) :
    ∃ pre post, data = pre ++ 0x7B :: post ∧ 0x7B ∉ pre
      ∧ indexByte data 0x7B = (pre.length : Int)
      ∧ extractJSON data = 0x7B :: post := by
  obtain ⟨pre, post, hd, hp, hi⟩ := (indexByte_spec 0x7B data).2 h
  refine ⟨pre, post, hd, hp, hi, ?_⟩
  unfold extractJSON
  have hne : ¬ ((pre.length : Int) = -1) := by omega
  simp only [hi, hne, if_false, Int.toNat_ofNat]
  rw [hd, List.drop_left]

theorem extractJSON_of_not_mem (data : List Byte) (h : 0x7B ∉ data) :
    extractJSON data = data := by
  unfold extractJSON
  simp [(indexByte_spec 0x7B data).1 h]

theorem extractJSON_of_head (post : List Byte) :
    extractJSON (0x7B :: post) = 0x7B :: post := by
  simp [extractJSON, indexByte]

/-- C15: when `data` holds a `{`, `extractJSON` returns the part of `data`
from the first `{` on (what comes before holds no `{`, what comes after is
kept); when it holds none, `data` is returned as it is.  So data that starts
with `{` is returned unchanged, and `extractJSON` is idempotent. -/
theorem extractJSON_locates (data : List Byte) :
    (0x7B ∈ data → ∃ pre post, data = pre ++ extractJSON data ∧ 0x7B ∉ pre
        ∧ extractJSON data = 0x7B :: post
        ∧ indexByte data 0x7B = (pre.length : Int))
      ∧ (0x7B ∉ data → extractJSON data = data)
      ∧ (data.head? = some 0x7B → extractJSON data = data)
      ∧ extractJSON (extractJSON data) = extractJSON data := by
  refine ⟨?_, extractJSON_of_not_mem data, ?_, ?_⟩
  · intro h
    obtain ⟨pre, post, hd, hp, hi, he⟩ := extractJSON_of_mem data h
    exact ⟨pre, post, by rw [he]; exact hd, hp, he, hi⟩
  · intro h
    cases data with
    | nil => simp at h
    | cons x rest =>
      simp only [List.head?_cons, Option.some.injEq] at h
      subst h
      exact extractJSON_of_head rest
  · by_cases h : 0x7B ∈ data
    · obtain ⟨pre, post, _, _, _, he⟩ := extractJSON_of_mem data h
      rw [he]
      exact extractJSON_of_head post
    · rw [extractJSON_of_not_mem data h, extractJSON_of_not_mem data h]


/-- C16: a payload shorter than two bytes, or whose first two bytes are not
`1f 8b`, is returned unchanged and without error by the decompression stage,
whatever the gzip decoder would do. -/
theorem gzipStage_passes_through (gzipHeader : List Byte → Bool)
    (gzipReadAll : List Byte → Option (List Byte)) (payload : List Byte)
    (h : payload.length < 2 ∨ payload.take 2 ≠ [0x1f, 0x8b]) :
    gzipStage gzipHeader gzipReadAll payload = .ok payload := by
  unfold gzipStage
  rw [if_neg]
  rintro ⟨hl, h0, h1⟩
  rcases h with h | h
  · omega
  · apply h
    match payload, h0, h1 with
    | a :: b :: rest, h0, h1 =>
      simp only [List.get?_cons_zero, List.get?_cons_succ, Option.some.injEq] at h0 h1
      simp [h0, h1]

theorem gzipStage_passes_through_witness :
    ((ascii "\x7b\"a\":1\x7d").length < 2 ∨ (ascii "\x7b\"a\":1\x7d").take 2 ≠ [0x1f, 0x8b])
      ∧ gzipStage (fun _ => true) (fun _ => some []) (ascii "\x7b\"a\":1\x7d")
        = .ok (ascii "\x7b\"a\":1\x7d") :=
  ⟨Or.inr (by decide),
    gzipStage_passes_through (fun _ => true) (fun _ => some []) (ascii "\x7b\"a\":1\x7d")
      (Or.inr (by decide))⟩

/-- C20, as stated, fails: an object whose `__type` is a wrapper around a
string is converted to an object with a string-valued `__type`, which a second
conversion turns into null. -/
theorem convertValue_twice_differs :
    convertValue (.obj [("__type", .obj [("__type", .str "T"), ("value", .str "s")])])
        = .obj [("__type", .str "s")]
      ∧ convertValue (.obj [("__type", .str "s")]) = .null
      ∧ convertValue (convertValue
          (.obj [("__type", .obj [("__type", .str "T"), ("value", .str "s")])]))
        ≠ convertValue (.obj [("__type", .obj [("__type", .str "T"), ("value", .str "s")])]) :=
  ⟨rfl, rfl, fun h => JVal.noConfusion h⟩

/-- C20, amended: on a tree in which no object has an object-valued `__type`
key, converting twice gives the same as converting once. -/
theorem convertValue_idempotent (v : JVal) (h : noObjectTag v = true) :
    convertValue (convertValue v) = convertValue v :=
  convertValue_of_plain (convertValue v) (convertValue_resolves v h)

theorem convertValue_idempotent_witness :
    noObjectTag (.obj [("k", .obj [("__type", .str "System.String"), ("value", .str "hi")]),
        ("n", .arr [.null, .obj [("__type", .str "X")]])]) = true
      ∧ convertValue (convertValue
          (.obj [("k", .obj [("__type", .str "System.String"), ("value", .str "hi")]),
            ("n", .arr [.null, .obj [("__type", .str "X")]])]))
        = convertValue
          (.obj [("k", .obj [("__type", .str "System.String"), ("value", .str "hi")]),
            ("n", .arr [.null, .obj [("__type", .str "X")]])]) :=
  ⟨rfl,
    convertValue_idempotent
      (.obj [("k", .obj [("__type", .str "System.String"), ("value", .str "hi")]),
        ("n", .arr [.null, .obj [("__type", .str "X")]])]) rfl⟩

/-! ## Trimming -/

theorem dropSeq_cons (q : List Byte) (qs : List (List Byte)) (s : List Byte) :
    dropSeq (q :: qs) s = if q.isPrefixOf s then some (s.drop q.length) else dropSeq qs s := by
  unfold dropSeq
  rw [List.findSome?_cons]
  split
  · rename_i r h
    split at h
    · rename_i hp
      rw [if_pos hp]
      exact h.symm
    · cases h
  · rename_i h
    split at h
    · cases h
    · rename_i hp
      rw [if_neg hp]

theorem dropSeq_some (seqs : List (List Byte)) (s r : List Byte)
    (h : dropSeq seqs s = some r) : ∃ q, q ∈ seqs ∧ s = q ++ r := by
  induction seqs with
  | nil => simp [dropSeq] at h
  | cons q qs ih =>
    rw [dropSeq_cons] at h
    split at h
    · rename_i hp
      simp only [Option.some.injEq] at h
      rw [List.isPrefixOf_iff_prefix] at hp
      refine ⟨q, List.mem_cons_self _ _, ?_⟩
      rw [← h]
      exact (List.prefix_iff_eq_append.1 hp).symm
    · obtain ⟨q', hq', hs⟩ := ih h
      exact ⟨q', List.mem_cons_of_mem _ hq', hs⟩

theorem dropSeq_nil (seqs : List (List Byte)) (hne : ∀ q ∈ seqs, q ≠ []) :
    dropSeq seqs [] = none := by
  cases h : dropSeq seqs [] with
  | none => rfl
  | some r =>
    obtain ⟨q, hq, hs⟩ := dropSeq_some seqs [] r h
    have : q = [] := (List.append_eq_nil.1 hs.symm).1
    exact absurd this (hne q hq)

theorem trimFront_nil (seqs : List (List Byte)) (hne : ∀ q ∈ seqs, q ≠ []) (n : Nat) :
    trimFront seqs n [] = [] := by
  cases n with
  | zero => rfl
  | succ n => simp [trimFront, dropSeq_nil seqs hne]

/-- What `trimFront` removes is made of bytes of the sequences. -/
theorem trimFront_decomp (seqs : List (List Byte)) : ∀ (n : Nat) (s : List Byte),
    ∃ w, s = w ++ trimFront seqs n s ∧ ∀ c ∈ w, ∃ q ∈ seqs, c ∈ q
  | 0, s => ⟨[], by simp [trimFront], by simp⟩
  | n + 1, s => by
    cases h : dropSeq seqs s with
    | none => exact ⟨[], by simp [trimFront, h], by simp⟩
    | some r =>
      obtain ⟨q, hq, hs⟩ := dropSeq_some seqs s r h
      obtain ⟨w, hw, hc⟩ := trimFront_decomp seqs n r
      refine ⟨q ++ w, ?_, ?_⟩
      · simp only [trimFront, h]
        rw [List.append_assoc, ← hw, hs]
      · intro c hcm
        rcases List.mem_append.1 hcm with hcm | hcm
        · exact ⟨q, hq, hcm⟩
        · exact hc c hcm

theorem trimSpace_decomp (s : List Byte) :
    ∃ w1 w2, s = w1 ++ trimSpace s ++ w2 ∧ (∀ c ∈ w1, ∃ q ∈ spaceSeqs, c ∈ q)
      ∧ (∀ c ∈ w2, ∃ q ∈ spaceSeqs, c ∈ q) := by
  obtain ⟨w1, h1, hc1⟩ := trimFront_decomp spaceSeqs s.length s
  obtain ⟨w2, h2, hc2⟩ := trimFront_decomp (spaceSeqs.map List.reverse)
    (trimFront spaceSeqs s.length s).length (trimFront spaceSeqs s.length s).reverse
  refine ⟨w1, w2.reverse, ?_, hc1, ?_⟩
  · have h3 := congrArg List.reverse h2
    rw [List.reverse_reverse, List.reverse_append] at h3
    unfold trimSpace
    simp only
    rw [List.append_assoc, ← h3, ← h1]
  · intro c hc
    obtain ⟨q, hq, hcq⟩ := hc2 c (List.mem_reverse.1 hc)
    obtain ⟨q0, hq0, rfl⟩ := List.mem_map.1 hq
    exact ⟨q0, hq0, List.mem_reverse.1 hcq⟩

theorem trimSpace_within (s : List Byte) : trimSpace s <:+: s := by
  obtain ⟨w1, w2, h, _, _⟩ := trimSpace_decomp s
  exact ⟨w1, w2, h.symm⟩

theorem mem_trimSpace_iff (s : List Byte) (c : Byte) (h : ∀ q ∈ spaceSeqs, c ∉ q) :
    c ∈ trimSpace s ↔ c ∈ s := by
  obtain ⟨w1, w2, hs, h1, h2⟩ := trimSpace_decomp s
  constructor
  · intro hc
    rw [hs]
    simp [hc]
  · intro hc
    rw [hs] at hc
    simp only [List.mem_append] at hc
    rcases hc with (hc | hc) | hc
    · obtain ⟨q, hq, hcq⟩ := h1 c hc
      exact absurd hcq (h q hq)
    · exact hc
    · obtain ⟨q, hq, hcq⟩ := h2 c hc
      exact absurd hcq (h q hq)

theorem open_not_space : ∀ q ∈ spaceSeqs, (0x7B : Byte) ∉ q := by decide

theorem close_not_space : ∀ q ∈ spaceSeqs, (0x7D : Byte) ∉ q := by decide

/-! ## The brace count of a line -/

theorem scanLine_append : ∀ (a b : List Byte) (depth : Int) (started : Bool),
    scanLine (a ++ b) depth started
      = scanLine b (scanLine a depth started).1 (scanLine a depth started).2
  | [], _, _, _ => rfl
  | c :: a, b, depth, started => by
    simp only [List.cons_append, scanLine]
    split
    · exact scanLine_append a b _ _
    · split
      · exact scanLine_append a b _ _
      · exact scanLine_append a b _ _

theorem scanLine_of_no_brace : ∀ (a : List Byte) (depth : Int) (started : Bool),
    (0x7B : Byte) ∉ a → (0x7D : Byte) ∉ a → scanLine a depth started = (depth, started)
  | [], _, _, _, _ => rfl
  | c :: a, depth, started, h1, h2 => by
    simp only [List.mem_cons, not_or] at h1 h2
    have hc1 : ¬ c = 0x7B := fun e => h1.1 e.symm
    have hc2 : ¬ c = 0x7D := fun e => h2.1 e.symm
    simp only [scanLine, hc1, hc2, if_false]
    exact scanLine_of_no_brace a depth started h1.2 h2.2

theorem scanLine_started : ∀ (a : List Byte) (depth : Int) (started : Bool),
    (scanLine a depth started).2 = (started || decide ((0x7B : Byte) ∈ a))
  | [], _, _ => by simp [scanLine]
  | c :: a, depth, started => by
    simp only [scanLine]
    split
    · rename_i h
      rw [scanLine_started a _ true]
      simp [h]
    · rename_i h
      have h' : ¬ (0x7B : Byte) = c := fun e => h e.symm
      split <;> rw [scanLine_started a _ started] <;> simp [h']

theorem scanLine_trimSpace (s : List Byte) (depth : Int) (started : Bool) :
    scanLine (trimSpace s) depth started = scanLine s depth started := by
  obtain ⟨w1, w2, hs, h1, h2⟩ := trimSpace_decomp s
  have hw : ∀ w : List Byte, (∀ c ∈ w, ∃ q ∈ spaceSeqs, c ∈ q) →
      ((0x7B : Byte) ∉ w ∧ (0x7D : Byte) ∉ w) := by
    intro w hw
    constructor
    · intro hc
      obtain ⟨q, hq, hcq⟩ := hw _ hc
      exact open_not_space q hq hcq
    · intro hc
      obtain ⟨q, hq, hcq⟩ := hw _ hc
      exact close_not_space q hq hcq
  conv_rhs => rw [hs]
  rw [scanLine_append, scanLine_append,
    scanLine_of_no_brace w1 depth started (hw w1 h1).1 (hw w1 h1).2,
    scanLine_of_no_brace w2 _ _ (hw w2 h2).1 (hw w2 h2).2]


/-! ## A trailing carriage return is trimmed -/

theorem dropSeq_concat_cr (seqs : List (List Byte))
    (hcr : ∀ q ∈ seqs, q.getLast? = some 0x0D → q = [0x0D])
    (s : List Byte) (hs : s ≠ []) :
    dropSeq seqs (s ++ [0x0D]) = (dropSeq seqs s).map (fun r => r ++ [0x0D]) := by
  induction seqs with
  | nil => simp [dropSeq]
  | cons q qs ih =>
    have ih' := ih (fun q' hq' => hcr q' (List.mem_cons_of_mem _ hq'))
    have hq : q ≠ s ++ [0x0D] := by
      intro e
      have h1 := hcr q (List.mem_cons_self _ _) (by rw [e]; simp)
      rw [h1] at e
      have := congrArg List.length e
      simp at this
      exact hs this
    have hp : q.isPrefixOf (s ++ [0x0D]) = q.isPrefixOf s := by
      rw [Bool.eq_iff_iff, List.isPrefixOf_iff_prefix, List.isPrefixOf_iff_prefix,
        List.prefix_concat_iff]
      constructor
      · rintro (h | h)
        · exact absurd h hq
        · exact h
      · exact fun h => Or.inr h
    rw [dropSeq_cons, dropSeq_cons, hp]
    split
    · rename_i hpre
      rw [List.isPrefixOf_iff_prefix] at hpre
      simp only [Option.map_some']
      rw [List.drop_append_of_le_length hpre.length_le]
    · exact ih'

theorem spaceSeqs_ne_nil : ∀ q ∈ spaceSeqs, q ≠ [] := by decide

theorem spaceSeqs_cr : ∀ q ∈ spaceSeqs, q.getLast? = some 0x0D → q = [0x0D] := by decide

theorem trimFront_succ (seqs : List (List Byte)) (hne : ∀ q ∈ seqs, q ≠ []) :
    ∀ (n : Nat) (s : List Byte), s.length ≤ n → trimFront seqs (n + 1) s = trimFront seqs n s
  | 0, s, h => by
    have : s = [] := List.eq_nil_of_length_eq_zero (by omega)
    subst this
    rw [trimFront_nil seqs hne, trimFront_nil seqs hne]
  | n + 1, s, h => by
    cases hd : dropSeq seqs s with
    | none => simp [trimFront, hd]
    | some r =>
      obtain ⟨q, hq, hs⟩ := dropSeq_some seqs s r hd
      have hql : 0 < q.length := List.length_pos.2 (hne q hq)
      have hr : r.length ≤ n := by
        have := congrArg List.length hs
        simp at this
        omega
      have ih := trimFront_succ seqs hne n r hr
      rw [trimFront, hd]
      simp only
      rw [ih]
      simp [trimFront, hd]

theorem trimFront_concat_cr (seqs : List (List Byte)) (hne : ∀ q ∈ seqs, q ≠ [])
    (hcr : ∀ q ∈ seqs, q.getLast? = some 0x0D → q = [0x0D]) :
    ∀ (n : Nat) (s : List Byte), trimFront seqs n s ≠ [] →
      trimFront seqs n (s ++ [0x0D]) = trimFront seqs n s ++ [0x0D]
  | 0, s, _ => rfl
  | n + 1, s, h => by
    have hs : s ≠ [] := by
      intro e
      rw [e, trimFront_nil seqs hne] at h
      exact h rfl
    rw [trimFront, dropSeq_concat_cr seqs hcr s hs]
    cases hd : dropSeq seqs s with
    | none => simp [trimFront, hd]
    | some r =>
      simp only [Option.map_some']
      have hr : trimFront seqs n r ≠ [] := by
        simpa [trimFront, hd] using h
      rw [trimFront_concat_cr seqs hne hcr n r hr]
      simp [trimFront, hd]

theorem trimFront_all_concat_cr (seqs : List (List Byte)) (hne : ∀ q ∈ seqs, q ≠ [])
    (hcr : ∀ q ∈ seqs, q.getLast? = some 0x0D → q = [0x0D])
    (hin : dropSeq seqs [0x0D] = some []) :
    ∀ (n : Nat) (s : List Byte), trimFront seqs n s = [] →
      trimFront seqs (n + 1) (s ++ [0x0D]) = []
  | n, [], _ => by
    simp only [List.nil_append, trimFront, hin]
    exact trimFront_nil seqs hne n
  | 0, c :: s, h => by simp [trimFront] at h
  | n + 1, c :: s, h => by
    rw [trimFront, dropSeq_concat_cr seqs hcr (c :: s) (by simp)]
    cases hd : dropSeq seqs (c :: s) with
    | none => simp [trimFront, hd] at h
    | some r =>
      simp only [Option.map_some']
      have hr : trimFront seqs n r = [] := by
        simpa [trimFront, hd] using h
      exact trimFront_all_concat_cr seqs hne hcr hin n r hr

theorem trimSpace_concat_cr (s : List Byte) : trimSpace (s ++ [0x0D]) = trimSpace s := by
  have hrev : ∀ x : List Byte, dropSeq (spaceSeqs.map List.reverse) (0x0D :: x) = some x := by
    intro x
    simp [dropSeq, spaceSeqs, List.findSome?, List.isPrefixOf]
  by_cases hf : trimFront spaceSeqs s.length s = []
  · have h1 := trimFront_all_concat_cr spaceSeqs spaceSeqs_ne_nil spaceSeqs_cr (by decide)
      s.length s hf
    unfold trimSpace
    simp only [List.length_append, List.length_singleton, h1, hf]
  · have h1 := trimFront_concat_cr spaceSeqs spaceSeqs_ne_nil spaceSeqs_cr (s.length + 1) s
      (by rw [trimFront_succ spaceSeqs spaceSeqs_ne_nil s.length s (le_refl _)]; exact hf)
    rw [trimFront_succ spaceSeqs spaceSeqs_ne_nil s.length s (le_refl _)] at h1
    unfold trimSpace
    simp only [List.length_append, List.length_singleton, h1, List.reverse_append,
      List.reverse_singleton, List.singleton_append, trimFront, hrev]

/-! ## Replacing pairs and splitting into lines -/

theorem replacePair_cons_of_ne (a b : Byte) (new : List Byte) (x : Byte) (s : List Byte)
    (h : x ≠ a) : replacePair a b new (x :: s) = x :: replacePair a b new s := by
  cases s with
  | nil => simp [replacePair]
  | cons y rest => simp [replacePair, h]

theorem replacePair_cons_cons (a b : Byte) (new : List Byte) (x y : Byte) (rest : List Byte) :
    replacePair a b new (x :: y :: rest)
      = if x = a ∧ y = b then new ++ replacePair a b new rest
        else x :: replacePair a b new (y :: rest) := by
  rw [replacePair]

theorem replacePair_crlf_append (G : List Byte) : ∀ A : List Byte,
    ∃ B t, (t = [] ∨ t = [0x0D]) ∧ replacePair 0x0D 0x0A [0x0A] A = B ++ t
      ∧ replacePair 0x0D 0x0A [0x0A] (A ++ 0x0A :: G)
        = B ++ 0x0A :: replacePair 0x0D 0x0A [0x0A] G
  | [] => ⟨[], [], Or.inl rfl, by simp [replacePair],
      by simpa using replacePair_cons_of_ne 0x0D 0x0A [0x0A] 0x0A G (by decide)⟩
  | [x] => by
    by_cases hx : x = 0x0D
    · refine ⟨[], [0x0D], Or.inr rfl, by simp [replacePair, hx], ?_⟩
      simp [replacePair, hx]
    · refine ⟨[x], [], Or.inl rfl, by simp [replacePair], ?_⟩
      simp only [List.singleton_append, List.append_nil]
      rw [replacePair_cons_of_ne _ _ _ x _ hx, replacePair_cons_of_ne _ _ _ 0x0A G (by decide)]
  | x :: y :: rest => by
    by_cases hp : x = 0x0D ∧ y = 0x0A
    · obtain ⟨B, t, ht, h1, h2⟩ := replacePair_crlf_append G rest
      refine ⟨0x0A :: B, t, ht, ?_, ?_⟩
      · rw [replacePair_cons_cons, if_pos hp, h1]
        rfl
      · rw [show (x :: y :: rest) ++ 0x0A :: G = x :: y :: (rest ++ 0x0A :: G) from rfl,
          replacePair_cons_cons, if_pos hp, h2]
        rfl
    · obtain ⟨B, t, ht, h1, h2⟩ := replacePair_crlf_append G (y :: rest)
      refine ⟨x :: B, t, ht, ?_, ?_⟩
      · rw [replacePair_cons_cons, if_neg hp, h1]
        rfl
      · have h2' : replacePair 0x0D 0x0A [0x0A] (y :: (rest ++ 0x0A :: G))
            = B ++ 0x0A :: replacePair 0x0D 0x0A [0x0A] G := h2
        rw [show (x :: y :: rest) ++ 0x0A :: G = x :: y :: (rest ++ 0x0A :: G) from rfl,
          replacePair_cons_cons, if_neg hp, h2']
        rfl

theorem scanLine_crlf : ∀ (s : List Byte) (depth : Int) (started : Bool),
    scanLine (replacePair 0x0D 0x0A [0x0A] s) depth started = scanLine s depth started
  | [], _, _ => by simp [replacePair]
  | [x], _, _ => by simp [replacePair]
  | x :: y :: rest, depth, started => by
    by_cases hp : x = 0x0D ∧ y = 0x0A
    · obtain ⟨hx, hy⟩ := hp
      subst hx hy
      rw [replacePair_cons_cons, if_pos ⟨rfl, rfl⟩]
      simp only [List.singleton_append, scanLine]
      simp only [show ¬ ((0x0A : Byte) = 0x7B) by decide, show ¬ ((0x0A : Byte) = 0x7D) by decide,
        show ¬ ((0x0D : Byte) = 0x7B) by decide, show ¬ ((0x0D : Byte) = 0x7D) by decide,
        if_false]
      exact scanLine_crlf rest depth started
    · rw [replacePair_cons_cons, if_neg hp]
      simp only [scanLine]
      split
      · exact scanLine_crlf (y :: rest) _ _
      · split
        · exact scanLine_crlf (y :: rest) _ _
        · exact scanLine_crlf (y :: rest) _ _

theorem splitLines_ne_nil : ∀ s : List Byte, splitLines s ≠ []
  | [] => by simp [splitLines]
  | c :: rest => by
    simp only [splitLines]
    split
    · simp
    · split <;> simp

theorem withHead_nil (ls : List (List Byte)) (h : ls ≠ []) : withHead [] ls = ls := by
  cases ls with
  | nil => exact absurd rfl h
  | cons l ls => simp [withHead]

theorem withHead_withHead (p q : List Byte) (ls : List (List Byte)) :
    withHead p (withHead q ls) = withHead (p ++ q) ls := by
  cases ls with
  | nil => simp [withHead]
  | cons l ls => simp [withHead]

theorem splitLines_cons_lf (s : List Byte) : splitLines (0x0A :: s) = [] :: splitLines s := by
  simp [splitLines]

theorem splitLines_cons_of_ne (c : Byte) (s : List Byte) (h : c ≠ 0x0A) :
    splitLines (c :: s) = withHead [c] (splitLines s) := by
  simp only [splitLines, h, if_false]
  cases hs : splitLines s with
  | nil => exact absurd hs (splitLines_ne_nil s)
  | cons l ls => simp [withHead]

/-! ## The loop over the lines -/

theorem collectLines_cons (rawLine : List Byte) (rest : List (List Byte)) (depth : Int)
    (started : Bool) :
    collectLines (rawLine :: rest) depth started
      = if trimSpace rawLine = [] then collectLines rest depth started
        else if (scanLine rawLine depth started).2 = true then
          if (scanLine rawLine depth started).1 = 0 then [trimSpace rawLine]
          else trimSpace rawLine
            :: collectLines rest (scanLine rawLine depth started).1
              (scanLine rawLine depth started).2
        else collectLines rest (scanLine rawLine depth started).1
          (scanLine rawLine depth started).2 := by
  rw [collectLines]
  simp only [scanLine_trimSpace]

theorem scanLine_of_trim_nil (l : List Byte) (depth : Int) (started : Bool)
    (h : trimSpace l = []) : scanLine l depth started = (depth, started) := by
  rw [← scanLine_trimSpace, h]
  rfl

theorem collectLines_stop (l : List Byte) (rest : List (List Byte)) (depth : Int)
    (started : Bool) (hinv : started = true → depth ≠ 0)
    (h : scanLine l depth started = (0, true)) :
    collectLines (l :: rest) depth started = [trimSpace l] := by
  have hne : trimSpace l ≠ [] := by
    intro e
    rw [scanLine_of_trim_nil l depth started e] at h
    simp only [Prod.mk.injEq] at h
    exact hinv h.2 h.1
  rw [collectLines_cons, if_neg hne, h]
  simp

theorem collectLines_cut (R t : List Byte) (ht : t = [] ∨ t = [0x0D]) :
    ∀ (s p : List Byte) (depth : Int) (started : Bool),
      (started = true → depth ≠ 0) →
      scanLine (p ++ s) depth started = (0, true) →
      collectLines (withHead p (splitLines (s ++ 0x0A :: R))) depth started
        = collectLines (withHead p (splitLines (s ++ t))) depth started
  | [], p, depth, started, hinv, h => by
    rw [List.append_nil] at h
    have ht2 : trimSpace (p ++ t) = trimSpace p := by
      rcases ht with ht | ht
      · rw [ht, List.append_nil]
      · rw [ht, trimSpace_concat_cr]
    have hst : scanLine (p ++ t) depth started = (0, true) := by
      rw [← scanLine_trimSpace, ht2, scanLine_trimSpace, h]
    have hl : withHead p (splitLines ([] ++ 0x0A :: R)) = p :: splitLines R := by
      simp [splitLines_cons_lf, withHead]
    have hr : withHead p (splitLines ([] ++ t)) = [p ++ t] := by
      rcases ht with ht | ht
      · subst ht
        simp [splitLines, withHead]
      · subst ht
        simp [splitLines, withHead]
    rw [hl, hr, collectLines_stop p _ depth started hinv h,
      collectLines_stop (p ++ t) _ depth started hinv hst, ht2]
  | c :: s, p, depth, started, hinv, h => by
    by_cases hc : c = 0x0A
    · subst hc
      have hl : withHead p (splitLines ((0x0A :: s) ++ 0x0A :: R))
          = p :: withHead [] (splitLines (s ++ 0x0A :: R)) := by
        rw [List.cons_append, splitLines_cons_lf, withHead_nil _ (splitLines_ne_nil _)]
        simp [withHead]
      have hr : withHead p (splitLines ((0x0A :: s) ++ t))
          = p :: withHead [] (splitLines (s ++ t)) := by
        rw [List.cons_append, splitLines_cons_lf, withHead_nil _ (splitLines_ne_nil _)]
        simp [withHead]
      have hsc : scanLine ([] ++ s) (scanLine p depth started).1 (scanLine p depth started).2
          = (0, true) := by
        rw [List.nil_append, ← h, scanLine_append]
        rw [show scanLine (0x0A :: s) (scanLine p depth started).1 (scanLine p depth started).2
          = scanLine s (scanLine p depth started).1 (scanLine p depth started).2 from by
            simp [scanLine]]
      rw [hl, hr, collectLines_cons, collectLines_cons]
      by_cases he : trimSpace p = []
      · rw [if_pos he, if_pos he]
        have hp := scanLine_of_trim_nil p depth started he
        rw [hp] at hsc
        exact collectLines_cut R t ht s [] depth started hinv hsc
      · rw [if_neg he, if_neg he]
        by_cases hst : (scanLine p depth started).2 = true
        · rw [if_pos hst, if_pos hst]
          by_cases hd : (scanLine p depth started).1 = 0
          · rw [if_pos hd, if_pos hd]
          · rw [if_neg hd, if_neg hd]
            rw [collectLines_cut R t ht s [] _ _ (fun _ => hd) hsc]
        · rw [if_neg hst, if_neg hst]
          exact collectLines_cut R t ht s [] _ _ (fun e => absurd e hst) hsc
    · have hl : withHead p (splitLines ((c :: s) ++ 0x0A :: R))
          = withHead (p ++ [c]) (splitLines (s ++ 0x0A :: R)) := by
        rw [List.cons_append, splitLines_cons_of_ne c _ hc, withHead_withHead]
      have hr : withHead p (splitLines ((c :: s) ++ t))
          = withHead (p ++ [c]) (splitLines (s ++ t)) := by
        rw [List.cons_append, splitLines_cons_of_ne c _ hc, withHead_withHead]
      rw [hl, hr]
      apply collectLines_cut R t ht s (p ++ [c]) depth started hinv
      rw [List.append_assoc]
      exact h

/-- The lines that `cleanJSON` keeps. -/
theorem cleanJSON_eq_of_lines (a b : List Byte)
    (h : collectLines (splitLines (replacePair 0x0D 0x0A [0x0A] a)) 0 false
      = collectLines (splitLines (replacePair 0x0D 0x0A [0x0A] b)) 0 false) :
    cleanJSON a = cleanJSON b := by
  unfold cleanJSON
  simp only [h]

theorem cleanJSON_cut (A G : List Byte) (h : scanLine A 0 false = (0, true)) :
    cleanJSON (A ++ 0x0A :: G) = cleanJSON A := by
  apply cleanJSON_eq_of_lines
  obtain ⟨B, t, ht, h1, h2⟩ := replacePair_crlf_append G A
  rw [h1, h2]
  have hB : scanLine ([] ++ B) 0 false = (0, true) := by
    have h3 := scanLine_crlf A 0 false
    rw [h1, scanLine_append, h] at h3
    rcases ht with ht | ht
    · subst ht
      simpa [scanLine] using h3
    · subst ht
      simpa [scanLine] using h3
  have := collectLines_cut (replacePair 0x0D 0x0A [0x0A] G) t ht B [] 0 false (by simp) hB
  rw [withHead_nil _ (splitLines_ne_nil _), withHead_nil _ (splitLines_ne_nil _)] at this
  exact this

/-! ## What the sanitizer keeps of a `{` -/

theorem mem_replacePair_iff (a b : Byte) (new : List Byte) (c : Byte)
    (hca : c ≠ a) (hcb : c ≠ b) (hcn : c ∉ new) :
    ∀ s : List Byte, c ∈ replacePair a b new s ↔ c ∈ s
  | [] => by simp [replacePair]
  | [x] => by simp [replacePair]
  | x :: y :: rest => by
    rw [replacePair_cons_cons]
    split
    · rename_i hp
      rw [List.mem_append, mem_replacePair_iff a b new c hca hcb hcn rest]
      simp only [List.mem_cons, hp.1, hp.2, hca, hcb, hcn, false_or]
    · rw [List.mem_cons, mem_replacePair_iff a b new c hca hcb hcn (y :: rest)]
      simp only [List.mem_cons]

theorem splitLines_shape : ∀ s : List Byte,
    ∃ l0 ls, splitLines s = l0 :: ls ∧ l0 <+: s ∧ ∀ l ∈ ls, l <:+: s
  | [] => ⟨[], [], by simp [splitLines], List.prefix_refl _, by simp⟩
  | c :: rest => by
    obtain ⟨l0, ls, h, hp, hi⟩ := splitLines_shape rest
    by_cases hc : c = 0x0A
    · subst hc
      refine ⟨[], l0 :: ls, by rw [splitLines_cons_lf, h], List.nil_prefix, ?_⟩
      intro l hl
      rcases List.mem_cons.1 hl with hl | hl
      · subst hl
        exact List.infix_cons hp.isInfix
      · exact List.infix_cons (hi l hl)
    · refine ⟨c :: l0, ls, by rw [splitLines_cons_of_ne c rest hc, h]; rfl, ?_, ?_⟩
      · exact List.cons_prefix_cons.2 ⟨rfl, hp⟩
      · intro l hl
        exact List.infix_cons (hi l hl)

theorem splitLines_within (s l : List Byte) (h : l ∈ splitLines s) : l <:+: s := by
  obtain ⟨l0, ls, hs, hp, hi⟩ := splitLines_shape s
  rw [hs] at h
  rcases List.mem_cons.1 h with h | h
  · subst h
    exact hp.isInfix
  · exact hi l h

theorem mem_splitLines (c : Byte) (hc : c ≠ 0x0A) : ∀ s : List Byte, c ∈ s →
    ∃ l ∈ splitLines s, c ∈ l
  | [], h => by simp at h
  | x :: rest, h => by
    by_cases hx : x = 0x0A
    · subst hx
      rcases List.mem_cons.1 h with h | h
      · exact absurd h hc
      · obtain ⟨l, hl, hcl⟩ := mem_splitLines c hc rest h
        exact ⟨l, by rw [splitLines_cons_lf]; exact List.mem_cons_of_mem _ hl, hcl⟩
    · rw [splitLines_cons_of_ne x rest hx]
      obtain ⟨l0, ls, hs, _, _⟩ := splitLines_shape rest
      rw [hs]
      simp only [withHead, List.singleton_append]
      rcases List.mem_cons.1 h with h | h
      · exact ⟨x :: l0, List.mem_cons_self _ _, by rw [h]; exact List.mem_cons_self _ _⟩
      · obtain ⟨l, hl, hcl⟩ := mem_splitLines c hc rest h
        rw [hs] at hl
        rcases List.mem_cons.1 hl with hl | hl
        · subst hl
          exact ⟨x :: l, List.mem_cons_self _ _, List.mem_cons_of_mem _ hcl⟩
        · exact ⟨l, List.mem_cons_of_mem _ hl, hcl⟩

theorem collectLines_trimmed : ∀ (lines : List (List Byte)) (depth : Int) (started : Bool),
    ∀ l ∈ collectLines lines depth started, ∃ raw ∈ lines, l = trimSpace raw
  | [], _, _ => by simp [collectLines]
  | raw :: rest, depth, started => by
    intro l hl
    rw [collectLines_cons] at hl
    split at hl
    · obtain ⟨r, hr, e⟩ := collectLines_trimmed rest _ _ l hl
      exact ⟨r, List.mem_cons_of_mem _ hr, e⟩
    · split at hl
      · split at hl
        · simp only [List.mem_singleton] at hl
          exact ⟨raw, List.mem_cons_self _ _, hl⟩
        · rcases List.mem_cons.1 hl with hl | hl
          · exact ⟨raw, List.mem_cons_self _ _, hl⟩
          · obtain ⟨r, hr, e⟩ := collectLines_trimmed rest _ _ l hl
            exact ⟨r, List.mem_cons_of_mem _ hr, e⟩
      · obtain ⟨r, hr, e⟩ := collectLines_trimmed rest _ _ l hl
        exact ⟨r, List.mem_cons_of_mem _ hr, e⟩

theorem collectLines_of_no_open : ∀ (lines : List (List Byte)) (depth : Int),
    (∀ l ∈ lines, (0x7B : Byte) ∉ l) → collectLines lines depth false = []
  | [], _, _ => by simp [collectLines]
  | raw :: rest, depth, h => by
    have hraw : (0x7B : Byte) ∉ raw := h raw (List.mem_cons_self _ _)
    have hrest : ∀ l ∈ rest, (0x7B : Byte) ∉ l := fun l hl => h l (List.mem_cons_of_mem _ hl)
    have hst : (scanLine raw depth false).2 = false := by
      rw [scanLine_started]
      simp [hraw]
    rw [collectLines_cons]
    split
    · exact collectLines_of_no_open rest depth hrest
    · rw [hst]
      simp only [Bool.false_eq_true, if_false]
      exact collectLines_of_no_open rest _ hrest

theorem collectLines_of_open : ∀ (lines : List (List Byte)) (depth : Int),
    (∃ l ∈ lines, (0x7B : Byte) ∈ l) →
      ∃ l0 ls, collectLines lines depth false = l0 :: ls ∧ (0x7B : Byte) ∈ l0
  | [], _, h => by simp at h
  | raw :: rest, depth, h => by
    by_cases hraw : (0x7B : Byte) ∈ raw
    · have htr : (0x7B : Byte) ∈ trimSpace raw :=
        (mem_trimSpace_iff raw 0x7B open_not_space).2 hraw
      have hne : trimSpace raw ≠ [] := List.ne_nil_of_mem htr
      have hst : (scanLine raw depth false).2 = true := by
        rw [scanLine_started]
        simp [hraw]
      rw [collectLines_cons, if_neg hne, if_pos hst]
      split
      · exact ⟨_, _, rfl, htr⟩
      · exact ⟨_, _, rfl, htr⟩
    · have hrest : ∃ l ∈ rest, (0x7B : Byte) ∈ l := by
        obtain ⟨l, hl, hc⟩ := h
        rcases List.mem_cons.1 hl with hl | hl
        · subst hl
          exact absurd hc hraw
        · exact ⟨l, hl, hc⟩
      have hst : (scanLine raw depth false).2 = false := by
        rw [scanLine_started]
        simp [hraw]
      rw [collectLines_cons]
      split
      · exact collectLines_of_open rest depth hrest
      · rw [hst]
        simp only [Bool.false_eq_true, if_false]
        exact collectLines_of_open rest _ hrest

theorem mem_joinLines_head (c : Byte) (l0 : List Byte) (ls : List (List Byte))
    (h : c ∈ l0) : c ∈ joinLines (l0 :: ls) := by
  cases ls with
  | nil => simpa [joinLines] using h
  | cons l1 rest =>
    simp only [joinLines]
    exact List.mem_append_left _ h

/-- A text without a `{` is cleaned to `{}`. -/
theorem cleanJSON_of_no_open (data : List Byte) (h : (0x7B : Byte) ∉ data) :
    cleanJSON data = [0x7B, 0x7D] := by
  have hl : ∀ l ∈ splitLines (replacePair 0x0D 0x0A [0x0A] data), (0x7B : Byte) ∉ l := by
    intro l hl hc
    have h1 := (splitLines_within _ l hl).subset hc
    exact h ((mem_replacePair_iff 0x0D 0x0A [0x0A] 0x7B (by decide) (by decide) (by decide)
      data).1 h1)
  unfold cleanJSON
  simp only [collectLines_of_no_open _ 0 hl, List.length_nil, if_true]

/-- C12: `cleanJSON` returns a value on every input; the value is never empty;
it is the two bytes `{}` when the input holds no `{`; and it holds a `{` when
the input does. -/
theorem cleanJSON_never_fails (data : List Byte) :
    cleanJSON data ≠ []
      ∧ ((0x7B : Byte) ∉ data → cleanJSON data = [0x7B, 0x7D])
      ∧ ((0x7B : Byte) ∈ data → (0x7B : Byte) ∈ cleanJSON data) := by
  have hno : (0x7B : Byte) ∉ data → cleanJSON data = [0x7B, 0x7D] := by
    intro h
    have hl : ∀ l ∈ splitLines (replacePair 0x0D 0x0A [0x0A] data), (0x7B : Byte) ∉ l := by
      intro l hl hc
      have h1 := (splitLines_within _ l hl).subset hc
      exact h ((mem_replacePair_iff 0x0D 0x0A [0x0A] 0x7B (by decide) (by decide) (by decide)
        data).1 h1)
    unfold cleanJSON
    simp only [collectLines_of_no_open _ 0 hl, List.length_nil, if_true]
  have hyes : (0x7B : Byte) ∈ data → (0x7B : Byte) ∈ cleanJSON data := by
    intro h
    have h1 := (mem_replacePair_iff 0x0D 0x0A [0x0A] 0x7B (by decide) (by decide) (by decide)
      data).2 h
    obtain ⟨l0, ls, hc, hm⟩ := collectLines_of_open _ 0
      (mem_splitLines 0x7B (by decide) _ h1)
    unfold cleanJSON
    simp only [hc, List.length_cons, Nat.add_one_ne_zero, if_false]
    rw [mem_trimSpace_iff _ _ open_not_space,
      mem_replacePair_iff 0x2C 0x5D [0x5D] 0x7B (by decide) (by decide) (by decide),
      mem_replacePair_iff 0x2C 0x7D [0x7D] 0x7B (by decide) (by decide) (by decide)]
    exact mem_joinLines_head _ _ _ hm
  refine ⟨?_, hno, hyes⟩
  by_cases h : (0x7B : Byte) ∈ data
  · exact List.ne_nil_of_mem (hyes h)
  · rw [hno h]
    simp

/-! ## Single lines -/

theorem scanLine_depth : ∀ (a : List Byte) (depth : Int) (started : Bool),
    (scanLine a depth started).1 = depth + (a.count 0x7B : Int) - (a.count 0x7D : Int)
  | [], _, _ => by simp [scanLine]
  | c :: a, depth, started => by
    simp only [scanLine]
    split
    · rename_i h
      subst h
      rw [scanLine_depth a _ true]
      simp only [List.count_cons_self]
      rw [List.count_cons_of_ne (by decide)]
      push_cast
      omega
    · rename_i h
      split
      · rename_i h2
        subst h2
        rw [scanLine_depth a _ started]
        simp only [List.count_cons_self]
        rw [List.count_cons_of_ne (by decide)]
        push_cast
        omega
      · rename_i h2
        rw [scanLine_depth a _ started]
        rw [List.count_cons_of_ne (fun e => h e.symm), List.count_cons_of_ne (fun e => h2 e.symm)]

theorem scanLine_balanced (a : List Byte) (hopen : 0 < a.count 0x7B)
    (hbal : a.count 0x7D = a.count 0x7B) : scanLine a 0 false = (0, true) := by
  have h1 := scanLine_depth a 0 false
  have h2 := scanLine_started a 0 false
  have hm : (0x7B : Byte) ∈ a := List.count_pos_iff.1 hopen
  rw [hbal] at h1
  apply Prod.ext
  · simp only [h1]
    omega
  · simp only [h2]
    simp [hm]

theorem hasPair_of_not_mem (a b : Byte) : ∀ s : List Byte, b ∉ s → hasPair a b s = false
  | [], _ => rfl
  | [x], _ => rfl
  | x :: y :: rest, h => by
    simp only [List.mem_cons, not_or] at h
    have hy : ¬ y = b := fun e => h.2.1 e.symm
    have ih := hasPair_of_not_mem a b (y :: rest) (by simp [h.2.1, h.2.2])
    simp [hasPair, hy, ih]

theorem replacePair_of_no_pair (a b : Byte) (new : List Byte) : ∀ s : List Byte,
    hasPair a b s = false → replacePair a b new s = s
  | [], _ => by simp [replacePair]
  | [x], _ => by simp [replacePair]
  | x :: y :: rest, h => by
    simp only [hasPair, Bool.or_eq_false_iff, Bool.and_eq_false_iff, decide_eq_false_iff_not] at h
    have hp : ¬ (x = a ∧ y = b) := by
      rintro ⟨h1, h2⟩
      rcases h.1 with h3 | h3
      · exact h3 h1
      · exact h3 h2
    rw [replacePair_cons_cons, if_neg hp, replacePair_of_no_pair a b new (y :: rest) h.2]

theorem splitLines_of_no_lf : ∀ s : List Byte, (0x0A : Byte) ∉ s → splitLines s = [s]
  | [], _ => by simp [splitLines]
  | c :: rest, h => by
    simp only [List.mem_cons, not_or] at h
    have hc : c ≠ 0x0A := fun e => h.1 e.symm
    rw [splitLines_cons_of_ne c rest hc, splitLines_of_no_lf rest h.2]
    rfl

theorem cleanJSON_single_line (J : List Byte) (hline : (0x0A : Byte) ∉ J)
    (hopen : (0x7B : Byte) ∈ J) :
    cleanJSON J
      = trimSpace (replacePair 0x2C 0x5D [0x5D]
          (replacePair 0x2C 0x7D [0x7D] (trimSpace J))) := by
  have h1 : replacePair 0x0D 0x0A [0x0A] J = J :=
    replacePair_of_no_pair _ _ _ J (hasPair_of_not_mem _ _ J hline)
  have htr : (0x7B : Byte) ∈ trimSpace J := (mem_trimSpace_iff J 0x7B open_not_space).2 hopen
  have hne : trimSpace J ≠ [] := List.ne_nil_of_mem htr
  have hst : (scanLine J 0 false).2 = true := by
    rw [scanLine_started]
    simp [hopen]
  have hc : collectLines [J] 0 false = [trimSpace J] := by
    rw [collectLines_cons, if_neg hne, if_pos hst]
    split
    · rfl
    · simp [collectLines]
  unfold cleanJSON
  simp only [h1, splitLines_of_no_lf J hline, hc, List.length_singleton, one_ne_zero, if_false,
    joinLines]

/-- C13: for a line `J` that holds at least one `{` and as many `}` as `{`,
whatever follows the line break after `J` is discarded: the result is that of
`J` alone, which is the trimmed line with its trailing commas removed. -/
theorem cleanJSON_discards_garbage (J G : List Byte) (hline : (0x0A : Byte) ∉ J)
    (hopen : 0 < J.count 0x7B) (hbal : J.count 0x7D = J.count 0x7B) :
    cleanJSON (J ++ 0x0A :: G) = cleanJSON J
      ∧ cleanJSON J
        = trimSpace (replacePair 0x2C 0x5D [0x5D]
            (replacePair 0x2C 0x7D [0x7D] (trimSpace J))) :=
  ⟨cleanJSON_cut J G (scanLine_balanced J hopen hbal),
    cleanJSON_single_line J hline (List.count_pos_iff.1 hopen)⟩

theorem cleanJSON_discards_garbage_witness :
    (0x0A : Byte) ∉ ascii "\x7b\"a\":1\x7d"
      ∧ 0 < (ascii "\x7b\"a\":1\x7d").count 0x7B
      ∧ (ascii "\x7b\"a\":1\x7d").count 0x7D = (ascii "\x7b\"a\":1\x7d").count 0x7B
      ∧ cleanJSON (ascii "\x7b\"a\":1\x7d" ++ 0x0A :: ascii "garbage after")
        = cleanJSON (ascii "\x7b\"a\":1\x7d")
      ∧ cleanJSON (ascii "\x7b\"a\":1\x7d") = ascii "\x7b\"a\":1\x7d" :=
  ⟨by decide, by decide, by decide,
    (cleanJSON_discards_garbage (ascii "\x7b\"a\":1\x7d") (ascii "garbage after")
      (by decide) (by decide) (by decide)).1, by decide⟩

/-! ## The lines that are kept -/

theorem scanLine_joinLines_cons (l : List Byte) (ls : List (List Byte)) (depth : Int)
    (started : Bool) :
    scanLine (joinLines (l :: ls)) depth started
      = scanLine (joinLines ls) (scanLine l depth started).1 (scanLine l depth started).2 := by
  cases ls with
  | nil => simp [joinLines, scanLine]
  | cons l2 rest =>
    rw [show joinLines (l :: l2 :: rest) = l ++ 0x0A :: joinLines (l2 :: rest) from rfl,
      scanLine_append]
    simp [scanLine]

theorem collectLines_congr : ∀ (ls ls2 : List (List Byte)) (depth : Int) (started : Bool),
    ls.map trimSpace = ls2.map trimSpace →
      collectLines ls depth started = collectLines ls2 depth started
  | [], [], _, _, _ => rfl
  | [], _ :: _, _, _, h => by simp at h
  | _ :: _, [], _, _, h => by simp at h
  | l :: ls, l2 :: ls2, depth, started, h => by
    simp only [List.map_cons, List.cons.injEq] at h
    have hs : scanLine l depth started = scanLine l2 depth started := by
      rw [← scanLine_trimSpace l, ← scanLine_trimSpace l2, h.1]
    rw [collectLines_cons, collectLines_cons, hs, h.1]
    have := fun d s => collectLines_congr ls ls2 d s h.2
    simp only [this]

theorem splitLines_append_lf : ∀ (b rest : List Byte), (0x0A : Byte) ∉ b →
    splitLines (b ++ 0x0A :: rest) = b :: splitLines rest
  | [], rest, _ => by simp [splitLines_cons_lf]
  | c :: b, rest, h => by
    simp only [List.mem_cons, not_or] at h
    have hc : c ≠ 0x0A := fun e => h.1 e.symm
    rw [List.cons_append, splitLines_cons_of_ne c _ hc, splitLines_append_lf b rest h.2]
    rfl

theorem splitLines_crlf_joinLines : ∀ ls : List (List Byte), ls ≠ [] →
    (∀ l ∈ ls, (0x0A : Byte) ∉ l) →
      (splitLines (replacePair 0x0D 0x0A [0x0A] (joinLines ls))).map trimSpace
        = ls.map trimSpace
  | [], h, _ => absurd rfl h
  | [l], _, hl => by
    have h0 : (0x0A : Byte) ∉ l := hl l (List.mem_singleton_self _)
    rw [show joinLines [l] = l from rfl,
      replacePair_of_no_pair _ _ _ l (hasPair_of_not_mem _ _ l h0), splitLines_of_no_lf l h0]
  | l :: l2 :: rest, _, hl => by
    have h0 : (0x0A : Byte) ∉ l := hl l (List.mem_cons_self _ _)
    have hrest : ∀ x ∈ l2 :: rest, (0x0A : Byte) ∉ x :=
      fun x hx => hl x (List.mem_cons_of_mem _ hx)
    obtain ⟨B, t, ht, h1, h2⟩ := replacePair_crlf_append (joinLines (l2 :: rest)) l
    rw [replacePair_of_no_pair _ _ _ l (hasPair_of_not_mem _ _ l h0)] at h1
    have hB : (0x0A : Byte) ∉ B := by
      intro hm
      apply h0
      rw [h1]
      exact List.mem_append_left _ hm
    have htrim : trimSpace B = trimSpace l := by
      rw [h1]
      rcases ht with ht | ht
      · rw [ht, List.append_nil]
      · rw [ht, trimSpace_concat_cr]
    rw [show joinLines (l :: l2 :: rest) = l ++ 0x0A :: joinLines (l2 :: rest) from rfl, h2,
      splitLines_append_lf B _ hB, List.map_cons, List.map_cons, htrim,
      splitLines_crlf_joinLines (l2 :: rest) (List.cons_ne_nil _ _) hrest]

theorem keptLines_cons_blank (l : List Byte) (ls : List (List Byte)) (h : trimSpace l = []) :
    keptLines (l :: ls) = keptLines ls := by
  simp [keptLines, h]

theorem keptLines_cons_open (l : List Byte) (ls : List (List Byte))
    (h : (0x7B : Byte) ∈ l) :
    keptLines (l :: ls)
      = trimSpace l :: (ls.map trimSpace).filter (fun l => decide (l ≠ [])) := by
  have htr : (0x7B : Byte) ∈ trimSpace l := (mem_trimSpace_iff l 0x7B open_not_space).2 h
  have hne : trimSpace l ≠ [] := List.ne_nil_of_mem htr
  simp [keptLines, hne, htr, List.dropWhile]

theorem keptLines_cons_skip (l : List Byte) (ls : List (List Byte))
    (h : (0x7B : Byte) ∉ l) : keptLines (l :: ls) = keptLines ls := by
  have htr : (0x7B : Byte) ∉ trimSpace l :=
    fun hm => h ((mem_trimSpace_iff l 0x7B open_not_space).1 hm)
  by_cases hne : trimSpace l = []
  · exact keptLines_cons_blank l ls hne
  · simp [keptLines, hne, htr, List.dropWhile]

theorem collectLines_kept : ∀ (ls : List (List Byte)) (depth : Int) (started : Bool),
    (started = true → depth ≠ 0) →
    (∀ k, k < ls.length - 1 →
      scanLine (joinLines (ls.take (k + 1))) depth started ≠ (0, true)) →
    collectLines ls depth started
      = if started = true then (ls.map trimSpace).filter (fun l => decide (l ≠ []))
        else keptLines ls
  | [], _, started, _, _ => by
    cases started <;> simp [collectLines, keptLines]
  | l :: rest, depth, started, hinv, hfirst => by
    have hnext : ∀ k, k < rest.length - 1 →
        scanLine (joinLines (rest.take (k + 1))) (scanLine l depth started).1
          (scanLine l depth started).2 ≠ (0, true) := by
      intro k hk
      have := hfirst (k + 1) (by simp only [List.length_cons]; omega)
      rw [show (l :: rest).take (k + 1 + 1) = l :: rest.take (k + 1) from rfl,
        scanLine_joinLines_cons] at this
      exact this
    rw [collectLines_cons]
    by_cases hb : trimSpace l = []
    · rw [if_pos hb]
      have hst := scanLine_of_trim_nil l depth started hb
      rw [hst] at hnext
      rw [collectLines_kept rest depth started hinv hnext, keptLines_cons_blank l rest hb]
      simp [hb]
    · rw [if_neg hb]
      have hstarted := scanLine_started l depth started
      by_cases hs : (scanLine l depth started).2 = true
      · rw [if_pos hs]
        have hkeep : (if started = true
              then ((l :: rest).map trimSpace).filter (fun l => decide (l ≠ []))
              else keptLines (l :: rest))
            = trimSpace l :: (rest.map trimSpace).filter (fun l => decide (l ≠ [])) := by
          by_cases hst : started = true
          · rw [if_pos hst]
            simp [hb]
          · rw [if_neg hst]
            apply keptLines_cons_open
            rw [hstarted] at hs
            simpa [hst] using hs
        rw [hkeep]
        by_cases hd : (scanLine l depth started).1 = 0
        · rw [if_pos hd]
          cases rest with
          | nil => simp
          | cons r rest2 =>
            exfalso
            have := hfirst 0 (by simp)
            apply this
            rw [show (l :: r :: rest2).take (0 + 1) = [l] from rfl,
              show joinLines [l] = l from rfl]
            exact Prod.ext hd hs
        · rw [if_neg hd, collectLines_kept rest _ _ (fun _ => hd) hnext, if_pos hs]
      · rw [if_neg hs]
        have hsf : started = false := by
          rw [hstarted] at hs
          cases started
          · rfl
          · simp at hs
        have hno : (0x7B : Byte) ∉ l := by
          rw [hstarted] at hs
          intro hm
          simp [hm] at hs
        rw [collectLines_kept rest _ _ (fun e => absurd e hs) hnext, if_neg hs, hsf,
          keptLines_cons_skip l rest hno]
        simp

theorem cleanJSON_of_kept (A : List Byte) (kept : List (List Byte)) (hne : kept ≠ [])
    (h : collectLines (splitLines (replacePair 0x0D 0x0A [0x0A] A)) 0 false = kept) :
    cleanJSON A
      = trimSpace (replacePair 0x2C 0x5D [0x5D]
          (replacePair 0x2C 0x7D [0x7D] (joinLines kept))) := by
  have hlen : kept.length ≠ 0 := fun e => hne (List.length_eq_zero.1 e)
  unfold cleanJSON
  simp only [h, if_neg hlen]

theorem cleanJSON_lines (ls : List (List Byte))
    (hlines : ∀ l ∈ ls, (0x0A : Byte) ∉ l)
    (hend : scanLine (joinLines ls) 0 false = (0, true))
    (hfirst : ∀ k, k < ls.length - 1 →
      scanLine (joinLines (ls.take (k + 1))) 0 false ≠ (0, true)) :
    cleanJSON (joinLines ls)
      = trimSpace (replacePair 0x2C 0x5D [0x5D]
          (replacePair 0x2C 0x7D [0x7D] (joinLines (keptLines ls)))) := by
  have hne : ls ≠ [] := by
    intro e
    rw [e] at hend
    simp [joinLines, scanLine] at hend
  have hcol : collectLines (splitLines (replacePair 0x0D 0x0A [0x0A] (joinLines ls))) 0 false
      = keptLines ls := by
    rw [collectLines_congr _ ls 0 false (splitLines_crlf_joinLines ls hne hlines),
      collectLines_kept ls 0 false (by simp) hfirst]
    simp
  have hopen : (0x7B : Byte) ∈ joinLines ls := by
    have := scanLine_started (joinLines ls) 0 false
    rw [hend] at this
    simpa using this.symm
  have hk : keptLines ls ≠ [] := by
    have h1 := (mem_replacePair_iff 0x0D 0x0A [0x0A] 0x7B (by decide) (by decide) (by decide)
      (joinLines ls)).2 hopen
    obtain ⟨l0, ls0, hc, _⟩ := collectLines_of_open _ 0 (mem_splitLines 0x7B (by decide) _ h1)
    rw [← hcol, hc]
    exact List.cons_ne_nil _ _
  exact cleanJSON_of_kept _ _ hk hcol

theorem collectLines_last : ∀ (ls : List (List Byte)) (depth : Int) (started : Bool),
    (started = true → depth ≠ 0) →
    (∀ k, k < ls.length - 1 →
      scanLine (joinLines (ls.take (k + 1))) depth started ≠ (0, true)) →
    scanLine (joinLines ls) depth started = (0, true) →
    ∃ last, ls.getLast? = some last
      ∧ (collectLines ls depth started).getLast? = some (trimSpace last)
  | [], depth, started, hinv, _, hend => by
    simp only [joinLines, scanLine, Prod.mk.injEq] at hend
    exact absurd hend.1 (hinv hend.2)
  | [l], depth, started, hinv, _, hend => by
    refine ⟨l, rfl, ?_⟩
    rw [collectLines_stop l [] depth started hinv hend]
    rfl
  | l :: r :: rest, depth, started, hinv, hfirst, hend => by
    have hnext : ∀ k, k < (r :: rest).length - 1 →
        scanLine (joinLines ((r :: rest).take (k + 1))) (scanLine l depth started).1
          (scanLine l depth started).2 ≠ (0, true) := by
      intro k hk
      have := hfirst (k + 1) (by simp only [List.length_cons] at hk ⊢; omega)
      rw [show (l :: r :: rest).take (k + 1 + 1) = l :: (r :: rest).take (k + 1) from rfl,
        scanLine_joinLines_cons] at this
      exact this
    have hend2 := hend
    rw [scanLine_joinLines_cons] at hend2
    have h0 : scanLine l depth started ≠ (0, true) := by
      have := hfirst 0 (by simp)
      exact this
    have hinv2 : (scanLine l depth started).2 = true → (scanLine l depth started).1 ≠ 0 :=
      fun hs hd => h0 (Prod.ext hd hs)
    obtain ⟨last, hl, hc⟩ := collectLines_last (r :: rest) _ _ hinv2 hnext hend2
    refine ⟨last, by rw [List.getLast?_cons_cons]; exact hl, ?_⟩
    rw [collectLines_cons]
    by_cases hb : trimSpace l = []
    · rw [if_pos hb]
      rw [scanLine_of_trim_nil l depth started hb] at hc
      exact hc
    · rw [if_neg hb]
      by_cases hs : (scanLine l depth started).2 = true
      · rw [if_pos hs, if_neg (hinv2 hs)]
        cases hcl : collectLines (r :: rest) (scanLine l depth started).1
            (scanLine l depth started).2 with
        | nil =>
          rw [hcl] at hc
          simp at hc
        | cons x xs =>
          rw [hcl] at hc
          rw [List.getLast?_cons_cons]
          exact hc
      · rw [if_neg hs]
        exact hc

/-- C17, as stated, fails: what follows the closing brace on its own line is
kept. -/
theorem cleanJSON_keeps_rest_of_line :
    scanLine (ascii "\x7b\"a\":1\x7d") 0 false = (0, true)
      ∧ cleanJSON (ascii "\x7b\"a\":1\x7d junk") = ascii "\x7b\"a\":1\x7d junk" := by
  decide

/-- C17, amended: the output is made of whole lines.  Let `ls` be the lines of
the input up to and including the first line at whose end a `{` has occurred
and the running brace depth is zero.  Then whatever follows the line break
after them is discarded, and the output is built from the lines `ls` and from
nothing else: each line is trimmed, the blank lines and the lines before the
first `{` are left out, the rest is joined by line feeds, `,}` and `,]` are
replaced by `}` and `]`, and the result is trimmed.  The last of the kept
lines is the whole last line of `ls`, trimmed: it is not cut at its closing
brace. -/
theorem cleanJSON_cuts_at_line_end (ls : List (List Byte)) (G : List Byte)
    (hlines : ∀ l ∈ ls, (0x0A : Byte) ∉ l)
    (hend : scanLine (joinLines ls) 0 false = (0, true))
    (hfirst : ∀ k, k < ls.length - 1 →
      scanLine (joinLines (ls.take (k + 1))) 0 false ≠ (0, true)) :
    cleanJSON (joinLines ls ++ 0x0A :: G) = cleanJSON (joinLines ls)
      ∧ cleanJSON (joinLines ls)
        = trimSpace (replacePair 0x2C 0x5D [0x5D]
            (replacePair 0x2C 0x7D [0x7D] (joinLines (keptLines ls))))
      ∧ ∃ last, ls.getLast? = some last
          ∧ (keptLines ls).getLast? = some (trimSpace last) := by
  refine ⟨cleanJSON_cut _ G hend, cleanJSON_lines ls hlines hend hfirst, ?_⟩
  obtain ⟨last, h1, h2⟩ := collectLines_last ls 0 false (by simp) hfirst hend
  refine ⟨last, h1, ?_⟩
  rw [collectLines_kept ls 0 false (by simp) hfirst] at h2
  simpa using h2

theorem cleanJSON_cuts_at_line_end_witness :
    ((∀ l ∈ [ascii "hdr", ascii " \x7b\r", ascii "", ascii "\"a\":[1,],", ascii "\x7d tail "],
          (0x0A : Byte) ∉ l)
        ∧ scanLine
            (joinLines
              [ascii "hdr", ascii " \x7b\r", ascii "", ascii "\"a\":[1,],", ascii "\x7d tail "])
            0 false = (0, true)
        ∧ (∀ k,
            k < [ascii "hdr", ascii " \x7b\r", ascii "", ascii "\"a\":[1,],",
                  ascii "\x7d tail "].length - 1 →
              scanLine
                (joinLines
                  ([ascii "hdr", ascii " \x7b\r", ascii "", ascii "\"a\":[1,],",
                      ascii "\x7d tail "].take (k + 1)))
                0 false ≠ (0, true))
        ∧ joinLines
            [ascii "hdr", ascii " \x7b\r", ascii "", ascii "\"a\":[1,],", ascii "\x7d tail "]
          = ascii "hdr\n \x7b\r\n\n\"a\":[1,],\n\x7d tail "
        ∧ keptLines
            [ascii "hdr", ascii " \x7b\r", ascii "", ascii "\"a\":[1,],", ascii "\x7d tail "]
          = [ascii "\x7b", ascii "\"a\":[1,],", ascii "\x7d tail"]
        ∧ cleanJSON
            (ascii "hdr\n \x7b\r\n\n\"a\":[1,],\n\x7d tail " ++ 0x0A :: ascii "more \x7b")
          = ascii "\x7b\n\"a\":[1],\n\x7d tail")
      ∧ (joinLines [ascii "\x7b\"a\":1\x7d ,] "] = ascii "\x7b\"a\":1\x7d ,] "
        ∧ cleanJSON (ascii "\x7b\"a\":1\x7d ,] " ++ 0x0A :: ascii "x")
          = ascii "\x7b\"a\":1\x7d ]") := by
  have h1 := cleanJSON_cuts_at_line_end
    [ascii "hdr", ascii " \x7b\r", ascii "", ascii "\"a\":[1,],", ascii "\x7d tail "]
    (ascii "more \x7b") (by decide) (by decide) (by decide)
  have h2 := cleanJSON_cuts_at_line_end [ascii "\x7b\"a\":1\x7d ,] "] (ascii "x")
    (by decide) (by decide) (by decide)
  exact ⟨⟨by decide, by decide, by decide, by decide, by decide,
      (h1.1.trans h1.2.1).trans (by decide)⟩,
    by decide, (h2.1.trans h2.2.1).trans (by decide)⟩

/-- C19, as stated, fails: in the valid one-line object with the string value
`,}` the comma inside the string literal is removed. -/
theorem cleanJSON_alters_string :
    (0x0A : Byte) ∉ ascii "\x7b\"a\":\",\x7d\"\x7d"
      ∧ trimSpace (ascii "\x7b\"a\":\",\x7d\"\x7d") = ascii "\x7b\"a\":\",\x7d\"\x7d"
      ∧ cleanJSON (ascii "\x7b\"a\":\",\x7d\"\x7d") = ascii "\x7b\"a\":\"\x7d\"\x7d"
      ∧ cleanJSON (ascii "\x7b\"a\":\",\x7d\"\x7d") ≠ ascii "\x7b\"a\":\",\x7d\"\x7d" := by
  decide

/-- C19, amended: a text on a single line that holds a `{`, has no leading or
trailing white space and in which no comma is immediately followed by `}` or by
`]`, inside string literals included, is returned unchanged. -/
theorem cleanJSON_keeps_clean_line (J : List Byte) (hline : (0x0A : Byte) ∉ J)
    (htrim : trimSpace J = J) (hopen : (0x7B : Byte) ∈ J)
    (hbrace : hasPair 0x2C 0x7D J = false) (hbracket : hasPair 0x2C 0x5D J = false) :
    cleanJSON J = J := by
  rw [cleanJSON_single_line J hline hopen, htrim, replacePair_of_no_pair _ _ _ J hbrace,
    replacePair_of_no_pair _ _ _ J hbracket, htrim]

theorem cleanJSON_keeps_clean_line_witness :
    (0x0A : Byte) ∉ ascii "\x7b\"a\":[1,2],\"b\":\"x, \x7by\x7d\"\x7d"
      ∧ trimSpace (ascii "\x7b\"a\":[1,2],\"b\":\"x, \x7by\x7d\"\x7d")
        = ascii "\x7b\"a\":[1,2],\"b\":\"x, \x7by\x7d\"\x7d"
      ∧ (0x7B : Byte) ∈ ascii "\x7b\"a\":[1,2],\"b\":\"x, \x7by\x7d\"\x7d"
      ∧ hasPair 0x2C 0x7D (ascii "\x7b\"a\":[1,2],\"b\":\"x, \x7by\x7d\"\x7d") = false
      ∧ hasPair 0x2C 0x5D (ascii "\x7b\"a\":[1,2],\"b\":\"x, \x7by\x7d\"\x7d") = false
      ∧ cleanJSON (ascii "\x7b\"a\":[1,2],\"b\":\"x, \x7by\x7d\"\x7d")
        = ascii "\x7b\"a\":[1,2],\"b\":\"x, \x7by\x7d\"\x7d" :=
  ⟨by decide, by decide, by decide, by decide, by decide,
    cleanJSON_keeps_clean_line (ascii "\x7b\"a\":[1,2],\"b\":\"x, \x7by\x7d\"\x7d")
      (by decide) (by decide) (by decide) (by decide) (by decide)⟩

/-! ## Commas before closers -/

theorem hasPair_cons (a b x : Byte) (l : List Byte) :
    hasPair a b (x :: l)
      = ((decide (x = a) && decide (l.head? = some b)) || hasPair a b l) := by
  cases l with
  | nil => simp [hasPair]
  | cons y rest => simp [hasPair]

theorem hasPair_iff_within (a b : Byte) : ∀ s : List Byte,
    hasPair a b s = true ↔ [a, b] <:+: s
  | [] => by simp [hasPair]
  | x :: l => by
    rw [hasPair_cons, List.infix_cons_iff, ← hasPair_iff_within a b l]
    simp only [Bool.or_eq_true, Bool.and_eq_true, decide_eq_true_eq]
    constructor
    · rintro (⟨h1, h2⟩ | h)
      · left
        cases l with
        | nil => simp at h2
        | cons y rest =>
          simp only [List.head?_cons, Option.some.injEq] at h2
          rw [h1, h2]
          exact List.cons_prefix_cons.2 ⟨rfl, List.cons_prefix_cons.2 ⟨rfl, List.nil_prefix⟩⟩
      · exact Or.inr h
    · rintro (h | h)
      · left
        cases l with
        | nil =>
          have := h.length_le
          simp at this
        | cons y rest =>
          obtain ⟨h1, h2⟩ := List.cons_prefix_cons.1 h
          obtain ⟨h3, _⟩ := List.cons_prefix_cons.1 h2
          exact ⟨h1.symm, by simp [h3]⟩
      · exact Or.inr h

theorem hasPair_of_within (a b : Byte) (t s : List Byte) (hts : t <:+: s)
    (h : hasPair a b t = true) : hasPair a b s = true :=
  (hasPair_iff_within a b s).2 (((hasPair_iff_within a b t).1 h).trans hts)

theorem replacePair_head (a b d : Byte) (hd : d ≠ b) : ∀ s : List Byte,
    (replacePair a b [b] s).head? = some d → s.head? = some d
  | [], h => by simp [replacePair] at h
  | [x], h => by simpa [replacePair] using h
  | x :: y :: rest, h => by
    rw [replacePair_cons_cons] at h
    split at h
    · simp only [List.singleton_append, List.head?_cons, Option.some.injEq] at h
      exact absurd h.symm hd
    · simpa using h

theorem replacePair_head_closer (a b : Byte) : ∀ s : List Byte,
    (replacePair a b [b] s).head? = some b →
      s.head? = some b ∨ ∃ rest, s = a :: b :: rest
  | [], h => by simp [replacePair] at h
  | [x], h => by
    left
    simpa [replacePair] using h
  | x :: y :: rest, h => by
    rw [replacePair_cons_cons] at h
    split at h
    · rename_i hp
      right
      exact ⟨rest, by rw [hp.1, hp.2]⟩
    · left
      simpa using h

/-- A pair whose second byte is not the closer is not created by the
replacement. -/
theorem hasPair_replacePair (a b c d : Byte) (hd : d ≠ b) : ∀ s : List Byte,
    hasPair c d (replacePair a b [b] s) = true → hasPair c d s = true
  | [], h => by simpa [replacePair] using h
  | [x], h => by simpa [replacePair] using h
  | x :: y :: rest, h => by
    rw [replacePair_cons_cons] at h
    split at h
    · rename_i hp
      rw [List.singleton_append, hasPair_cons] at h
      simp only [Bool.or_eq_true, Bool.and_eq_true, decide_eq_true_eq] at h
      rcases h with ⟨h1, h2⟩ | h
      · have h3 := replacePair_head a b d hd rest h2
        rw [hasPair_cons, hasPair_cons]
        simp [hp.2, h1, h3]
      · have ih := hasPair_replacePair a b c d hd rest h
        exact hasPair_of_within c d rest _ ⟨[x, y], [], by simp⟩ ih
    · rw [hasPair_cons] at h
      simp only [Bool.or_eq_true, Bool.and_eq_true, decide_eq_true_eq] at h
      rcases h with ⟨h1, h2⟩ | h
      · have h3 := replacePair_head a b d hd (y :: rest) h2
        rw [hasPair_cons]
        simp [h1, h3]
      · have ih := hasPair_replacePair a b c d hd (y :: rest) h
        rw [hasPair_cons, ih]
        simp

/-- A comma before the closer is left only where two commas stood. -/
theorem hasPair_replacePair_closer (a b : Byte) (hab : a ≠ b) : ∀ s : List Byte,
    hasPair a b (replacePair a b [b] s) = true → hasPair a a s = true
  | [], h => by simp [replacePair, hasPair] at h
  | [x], h => by simp [replacePair, hasPair] at h
  | x :: y :: rest, h => by
    rw [replacePair_cons_cons] at h
    split at h
    · rw [List.singleton_append, hasPair_cons] at h
      simp only [Bool.or_eq_true, Bool.and_eq_true, decide_eq_true_eq] at h
      rcases h with ⟨h1, _⟩ | h
      · exact absurd h1.symm hab
      · have ih := hasPair_replacePair_closer a b hab rest h
        exact hasPair_of_within a a rest _ ⟨[x, y], [], by simp⟩ ih
    · rename_i hp
      rw [hasPair_cons] at h
      simp only [Bool.or_eq_true, Bool.and_eq_true, decide_eq_true_eq] at h
      rcases h with ⟨h1, h2⟩ | h
      · rcases replacePair_head_closer a b (y :: rest) h2 with h3 | ⟨r, h3⟩
        · simp only [List.head?_cons, Option.some.injEq] at h3
          exact absurd ⟨h1, h3⟩ hp
        · simp only [List.cons.injEq] at h3
          rw [hasPair_cons]
          simp [h1, h3.1]
      · have ih := hasPair_replacePair_closer a b hab (y :: rest) h
        rw [hasPair_cons, ih]
        simp

theorem hasPair_append_lf (c d : Byte) (hc : c ≠ 0x0A) (hd : d ≠ 0x0A) :
    ∀ u v : List Byte, hasPair c d (u ++ 0x0A :: v) = true →
      hasPair c d u = true ∨ hasPair c d v = true
  | [], v, h => by
    rw [List.nil_append, hasPair_cons] at h
    simp only [Bool.or_eq_true, Bool.and_eq_true, decide_eq_true_eq] at h
    rcases h with ⟨h1, _⟩ | h
    · exact absurd h1.symm hc
    · exact Or.inr h
  | x :: u, v, h => by
    rw [List.cons_append, hasPair_cons] at h
    simp only [Bool.or_eq_true, Bool.and_eq_true, decide_eq_true_eq] at h
    rcases h with ⟨h1, h2⟩ | h
    · cases u with
      | nil =>
        simp only [List.nil_append, List.head?_cons, Option.some.injEq] at h2
        exact absurd h2.symm hd
      | cons y u' =>
        simp only [List.cons_append, List.head?_cons, Option.some.injEq] at h2
        left
        rw [hasPair_cons]
        simp [h1, h2]
    · rcases hasPair_append_lf c d hc hd u v h with h | h
      · left
        rw [hasPair_cons, h]
        simp
      · exact Or.inr h

theorem hasPair_joinLines (c d : Byte) (hc : c ≠ 0x0A) (hd : d ≠ 0x0A) :
    ∀ ls : List (List Byte), hasPair c d (joinLines ls) = true →
      ∃ l ∈ ls, hasPair c d l = true
  | [], h => by simp [joinLines, hasPair] at h
  | [l], h => ⟨l, List.mem_singleton_self _, by simpa [joinLines] using h⟩
  | l :: l2 :: rest, h => by
    simp only [joinLines] at h
    rcases hasPair_append_lf c d hc hd l _ h with h | h
    · exact ⟨l, List.mem_cons_self _ _, h⟩
    · obtain ⟨l', hl', h'⟩ := hasPair_joinLines c d hc hd (l2 :: rest) h
      exact ⟨l', List.mem_cons_of_mem _ hl', h'⟩

/-- C14: the code misses the case of two commas before a closer.  Each of the
two replacements is a single pass over the text, so `{"a":1,,}` comes out as
`{"a":1,}`, with a comma immediately followed by `}`, and `{"a":[1,,]}` keeps
a comma immediately followed by `]`.  A single trailing comma is removed, as
in `{"a":1,"b":2,}`. -/
theorem cleanJSON_leaves_comma :
    cleanJSON (ascii "\x7b\"a\":1,,\x7d") = ascii "\x7b\"a\":1,\x7d"
      ∧ hasPair 0x2C 0x7D (cleanJSON (ascii "\x7b\"a\":1,,\x7d")) = true
      ∧ hasPair 0x2C 0x5D (cleanJSON (ascii "\x7b\"a\":[1,,]\x7d")) = true
      ∧ cleanJSON (ascii "\x7b\"a\":1,\"b\":2,\x7d")
        = ascii "\x7b\"a\":1,\"b\":2\x7d" := by
  decide

/-- Where no comma of the input is immediately followed by another comma, the
output holds no comma immediately followed by `}` and none immediately
followed by `]`. -/
theorem cleanJSON_removes_trailing_commas (data : List Byte)
    (h : hasPair 0x2C 0x2C data = false) :
    hasPair 0x2C 0x7D (cleanJSON data) = false
      ∧ hasPair 0x2C 0x5D (cleanJSON data) = false := by
  have hlines : ∀ l ∈ collectLines (splitLines (replacePair 0x0D 0x0A [0x0A] data)) 0 false,
      hasPair 0x2C 0x2C l = false := by
    intro l hl
    obtain ⟨raw, hraw, e⟩ := collectLines_trimmed _ _ _ l hl
    by_contra hc
    rw [Bool.not_eq_false] at hc
    rw [e] at hc
    have h1 := hasPair_of_within _ _ _ _ (trimSpace_within raw) hc
    have h2 := hasPair_of_within _ _ _ _ (splitLines_within _ raw hraw) h1
    have h3 := hasPair_replacePair 0x0D 0x0A 0x2C 0x2C (by decide) data h2
    rw [h3] at h
    cases h
  have hjoin : hasPair 0x2C 0x2C
      (joinLines (collectLines (splitLines (replacePair 0x0D 0x0A [0x0A] data)) 0 false))
      = false := by
    by_contra hc
    rw [Bool.not_eq_false] at hc
    obtain ⟨l, hl, h'⟩ := hasPair_joinLines 0x2C 0x2C (by decide) (by decide) _ hc
    rw [hlines l hl] at h'
    cases h'
  unfold cleanJSON
  simp only
  split
  · decide
  · constructor
    · by_contra hc
      rw [Bool.not_eq_false] at hc
      have h1 := hasPair_of_within _ _ _ _ (trimSpace_within _) hc
      have h2 := hasPair_replacePair 0x2C 0x5D 0x2C 0x7D (by decide) _ h1
      have h3 := hasPair_replacePair_closer 0x2C 0x7D (by decide) _ h2
      rw [hjoin] at h3
      cases h3
    · by_contra hc
      rw [Bool.not_eq_false] at hc
      have h1 := hasPair_of_within _ _ _ _ (trimSpace_within _) hc
      have h2 := hasPair_replacePair_closer 0x2C 0x5D (by decide) _ h1
      have h3 := hasPair_replacePair 0x2C 0x7D 0x2C 0x2C (by decide) _ h2
      rw [hjoin] at h3
      cases h3

theorem cleanJSON_removes_trailing_commas_witness :
    hasPair 0x2C 0x2C (ascii "\x7b\"a\":1,\"b\":2,\x7d") = false
      ∧ (hasPair 0x2C 0x7D (cleanJSON (ascii "\x7b\"a\":1,\"b\":2,\x7d")) = false
        ∧ hasPair 0x2C 0x5D (cleanJSON (ascii "\x7b\"a\":1,\"b\":2,\x7d")) = false)
      ∧ cleanJSON (ascii "\x7b\"a\":1,\"b\":2,\x7d") = ascii "\x7b\"a\":1,\"b\":2\x7d" :=
  ⟨by decide,
    cleanJSON_removes_trailing_commas (ascii "\x7b\"a\":1,\"b\":2,\x7d") (by decide),
    by decide⟩

/-! ## The recovery scan -/

theorem recoveryScan_is_front : ∀ (s : List Byte) (depth : Int) (inString escaped : Bool),
    recoveryScan s depth inString escaped <+: s
  | [], _, _, _ => by simp [recoveryScan]
  | c :: rest, depth, inString, escaped => by
    simp only [recoveryScan]
    split
    · exact List.cons_prefix_cons.2 ⟨rfl, recoveryScan_is_front rest _ _ _⟩
    · split
      · exact List.cons_prefix_cons.2 ⟨rfl, recoveryScan_is_front rest _ _ _⟩
      · split
        · exact List.cons_prefix_cons.2 ⟨rfl, recoveryScan_is_front rest _ _ _⟩
        · split
          · split
            · exact List.cons_prefix_cons.2 ⟨rfl, recoveryScan_is_front rest _ _ _⟩
            · split
              · split
                · exact List.cons_prefix_cons.2 ⟨rfl, List.nil_prefix⟩
                · exact List.cons_prefix_cons.2 ⟨rfl, recoveryScan_is_front rest _ _ _⟩
              · exact List.cons_prefix_cons.2 ⟨rfl, recoveryScan_is_front rest _ _ _⟩
          · exact List.cons_prefix_cons.2 ⟨rfl, recoveryScan_is_front rest _ _ _⟩

/-- One step of the code's scan, against the step of the specification: they
agree as long as the escaped flag is only set inside a string and the byte is
not a backslash outside a string. -/
theorem recoveryScan_step (c : Byte) (rest : List Byte) (st : ScanState)
    (hinv : st.escaped = true → st.inString = true)
    (hstray : c = 0x5C → st.inString = true) :
    recoveryScan (c :: rest) st.depth st.inString st.escaped
      = if (refStep st c).depth = 0 ∧ st.depth = 1 then [c]
        else c :: recoveryScan rest (refStep st c).depth (refStep st c).inString
          (refStep st c).escaped := by
  obtain ⟨depth, inString, escaped⟩ := st
  simp only at hinv hstray
  cases inString <;> cases escaped <;> simp at hinv
  · -- outside a string, not escaped
    have h5 : ¬ c = 0x5C := fun e => by simpa using hstray e
    by_cases h22 : c = 0x22
    · subst h22
      simp only [recoveryScan, refStep]
      simp
      rw [if_neg (by omega)]
    · by_cases h7b : c = 0x7B
      · subst h7b
        simp only [recoveryScan, refStep]
        simp
        rw [if_neg (by omega)]
      · by_cases h7d : c = 0x7D
        · subst h7d
          simp only [recoveryScan, refStep]
          simp
          by_cases hd : depth - 1 = 0
          · rw [if_pos hd, if_pos ⟨hd, by omega⟩]
          · rw [if_neg hd, if_neg (fun h => hd h.1)]
        · simp only [recoveryScan, refStep]
          simp [h5, h22, h7b, h7d]
          rw [if_neg (by omega)]
  · -- inside a string, not escaped
    by_cases h5 : c = 0x5C
    · subst h5
      simp only [recoveryScan, refStep]
      simp
      rw [if_neg (by omega)]
    · by_cases h22 : c = 0x22
      · subst h22
        simp only [recoveryScan, refStep]
        simp
        rw [if_neg (by omega)]
      · simp only [recoveryScan, refStep]
        simp [h5, h22]
        rw [if_neg (by omega)]
  · -- inside a string, escaped
    simp only [recoveryScan, refStep]
    simp
    rw [if_neg (by omega)]

theorem refStep_inv (st : ScanState) (c : Byte)
    (hinv : st.escaped = true → st.inString = true) :
    (refStep st c).escaped = true → (refStep st c).inString = true := by
  obtain ⟨depth, inString, escaped⟩ := st
  simp only at hinv
  unfold refStep
  cases inString <;> cases escaped <;> simp at hinv <;> simp <;>
    (repeat' split) <;> simp

theorem refStep_depth (st : ScanState) (c : Byte) :
    st.depth - 1 ≤ (refStep st c).depth ∧ (refStep st c).depth ≤ st.depth + 1 := by
  obtain ⟨depth, inString, escaped⟩ := st
  unfold refStep
  simp only
  (repeat' split) <;> (constructor <;> first | omega | (simp; done) | (simp; omega))

theorem refRun_cons (st : ScanState) (c : Byte) (s : List Byte) :
    refRun st (c :: s) = refRun (refStep st c) s := rfl

theorem noStrayBackslash_cons (c : Byte) (rest : List Byte) (st : ScanState)
    (h : noStrayBackslash (c :: rest) st = true) :
    (c = 0x5C → st.inString = true) ∧ noStrayBackslash rest (refStep st c) = true := by
  simp only [noStrayBackslash, Bool.and_eq_true, Bool.not_eq_true', Bool.and_eq_false_iff,
    decide_eq_false_iff_not, Bool.not_eq_false'] at h
  refine ⟨fun e => ?_, h.2⟩
  rcases h.1 with h1 | h1
  · exact absurd e h1
  · exact h1

theorem recoveryScan_closes : ∀ (J : List Byte) (st : ScanState) (S : List Byte),
    J ≠ [] → 0 < st.depth → (st.escaped = true → st.inString = true) →
    noStrayBackslash J st = true →
    (∀ n, 0 < n → n < J.length → (refRun st (J.take n)).depth ≠ 0) →
    (refRun st J).depth = 0 →
    recoveryScan (J ++ S) st.depth st.inString st.escaped = J
  | [], _, _, hne, _, _, _, _, _ => absurd rfl hne
  | [c], st, S, _, hpos, hinv, hstray, _, hclose => by
    obtain ⟨hs, _⟩ := noStrayBackslash_cons c [] st hstray
    have hd := refStep_depth st c
    have hc : (refStep st c).depth = 0 := hclose
    rw [List.singleton_append, recoveryScan_step c S st hinv hs, if_pos ⟨hc, by omega⟩]
  | c :: c2 :: rest, st, S, _, hpos, hinv, hstray, hfirst, hclose => by
    obtain ⟨hs, hrest⟩ := noStrayBackslash_cons c (c2 :: rest) st hstray
    have hd := refStep_depth st c
    have h1 : (refStep st c).depth ≠ 0 := by
      have := hfirst 1 (by omega) (by simp)
      simpa [refRun] using this
    rw [List.cons_append, recoveryScan_step c _ st hinv hs, if_neg (fun h => h1 h.1)]
    congr 1
    apply recoveryScan_closes (c2 :: rest) (refStep st c) S (by simp) (by omega)
      (refStep_inv st c hinv) hrest
    · intro n hn hlt
      have := hfirst (n + 1) (by omega) (by simpa using hlt)
      rw [List.take_succ_cons, refRun_cons] at this
      exact this
    · rw [refRun_cons] at hclose
      exact hclose

theorem recoveryScan_whole : ∀ (s : List Byte) (st : ScanState),
    (st.escaped = true → st.inString = true) → noStrayBackslash s st = true →
    (∀ n, n < s.length → (refRun st (s.take n)).depth ≠ 0 →
      (refRun st (s.take (n + 1))).depth ≠ 0) →
    recoveryScan s st.depth st.inString st.escaped = s
  | [], _, _, _, _ => by simp [recoveryScan]
  | c :: rest, st, hinv, hstray, hnever => by
    obtain ⟨hs, hrest⟩ := noStrayBackslash_cons c rest st hstray
    have h0 : ¬ ((refStep st c).depth = 0 ∧ st.depth = 1) := by
      rintro ⟨h1, h2⟩
      have := hnever 0 (by simp) (by simp [refRun, h2])
      exact this (by simpa [refRun] using h1)
    rw [recoveryScan_step c rest st hinv hs, if_neg h0]
    congr 1
    apply recoveryScan_whole rest (refStep st c) (refStep_inv st c hinv) hrest
    intro n hn hne
    have := hnever (n + 1) (by simpa using hn) (by rw [List.take_succ_cons, refRun_cons]; exact hne)
    rw [List.take_succ_cons, refRun_cons] at this
    exact this

/-- C18, as stated, fails: in `{\}` the depth counted outside string literals
is back to zero at the last byte, but the scan treats the backslash as an
escape although it stands outside a string, skips the `}` and keeps the
whole input. -/
theorem recoveryScan_keeps_more :
    (ascii "\x7b\\\x7d").head? = some 0x7B
      ∧ refDepth (ascii "\x7b\\\x7d") = 0
      ∧ refDepth ((ascii "\x7b\\\x7d").take 1) ≠ 0
      ∧ refDepth ((ascii "\x7b\\\x7d").take 2) ≠ 0
      ∧ recoveryScan (ascii "\x7b\\\x7d" ++ ascii " junk") 0 false false
        = ascii "\x7b\\\x7d junk"
      ∧ recoveryScan (ascii "\x7b\\\x7d" ++ ascii " junk") 0 false false
        ≠ ascii "\x7b\\\x7d" := by
  decide

/-- C18, amended: the slice kept by the recovery scan is always a leading part
of its input.  For a text `J` that starts with `{`, in which no backslash
stands outside a string literal and whose brace depth, counted outside string
literals with backslash escapes honoured, first returns to zero at its last
byte, the scan of `J ++ S` keeps exactly `J`, whatever `S` is.  And a text
without a backslash outside string literals in which the depth never returns
to zero is kept whole. -/
theorem recoveryScan_keeps_object (J S s : List Byte) (hhead : J.head? = some 0x7B)
    (hclose : refDepth J = 0)
    (hfirst : ∀ n, n < J.length → 0 < n → refDepth (J.take n) ≠ 0)
    (hstray : noStrayBackslash J ⟨0, false, false⟩ = true) :
    recoveryScan (J ++ S) 0 false false = J
      ∧ recoveryScan s 0 false false <+: s
      ∧ (noStrayBackslash s ⟨0, false, false⟩ = true →
          (∀ n, n < s.length → refDepth (s.take n) ≠ 0 → refDepth (s.take (n + 1)) ≠ 0) →
          recoveryScan s 0 false false = s) := by
  refine ⟨?_, recoveryScan_is_front s 0 false false, ?_⟩
  · cases J with
    | nil => simp at hhead
    | cons c rest =>
      simp only [List.head?_cons, Option.some.injEq] at hhead
      subst hhead
      cases rest with
      | nil =>
        exact absurd hclose (by decide)
      | cons c2 rest =>
        obtain ⟨_, hrest⟩ := noStrayBackslash_cons _ _ _ hstray
        have hstep : refStep ⟨0, false, false⟩ 0x7B = ⟨1, false, false⟩ := by decide
        rw [hstep] at hrest
        have h := recoveryScan_closes (c2 :: rest) ⟨1, false, false⟩ S (by simp) (by decide)
          (by simp) hrest
          (by
            intro n hn hlt
            have := hfirst (n + 1) (by simpa using hlt) (by omega)
            rw [List.take_succ_cons] at this
            exact this)
          hclose
        rw [List.cons_append]
        simp only [recoveryScan]
        simp only [Bool.false_eq_true, if_false, show ¬ ((0x7B : Byte) = 0x5C) by decide,
          show ¬ ((0x7B : Byte) = 0x22) by decide, Bool.not_false, if_true]
        exact congrArg _ h
  · intro hs hnever
    exact recoveryScan_whole s ⟨0, false, false⟩ (by simp) hs hnever

theorem recoveryScan_keeps_object_witness :
    (ascii "\x7b\"a\":\"\x7d\"\x7d").head? = some 0x7B
      ∧ refDepth (ascii "\x7b\"a\":\"\x7d\"\x7d") = 0
      ∧ (∀ n, n < (ascii "\x7b\"a\":\"\x7d\"\x7d").length → 0 < n →
          refDepth ((ascii "\x7b\"a\":\"\x7d\"\x7d").take n) ≠ 0)
      ∧ noStrayBackslash (ascii "\x7b\"a\":\"\x7d\"\x7d") ⟨0, false, false⟩ = true
      ∧ recoveryScan (ascii "\x7b\"a\":\"\x7d\"\x7d" ++ ascii " junk") 0 false false
        = ascii "\x7b\"a\":\"\x7d\"\x7d" :=
  ⟨by decide, by decide, by decide, by decide,
    (recoveryScan_keeps_object (ascii "\x7b\"a\":\"\x7d\"\x7d") (ascii " junk") []
      (by decide) (by decide) (by decide) (by decide)).1⟩

theorem extractJSON_locates_witness :
    extractJSON (ascii "ES3 header \x7b\"a\":\x7b\x7d\x7d tail")
        = ascii "\x7b\"a\":\x7b\x7d\x7d tail"
      ∧ extractJSON (extractJSON (ascii "ES3 header \x7b\"a\":\x7b\x7d\x7d tail"))
        = extractJSON (ascii "ES3 header \x7b\"a\":\x7b\x7d\x7d tail") :=
  ⟨by decide, (extractJSON_locates (ascii "ES3 header \x7b\"a\":\x7b\x7d\x7d tail")).2.2.2⟩

theorem cleanJSON_never_fails_witness :
    (0x7B : Byte) ∉ ascii "no braces here"
      ∧ cleanJSON (ascii "no braces here") = [0x7B, 0x7D]
      ∧ (0x7B : Byte) ∈ ascii "hdr \x7b\"a\":1"
      ∧ (0x7B : Byte) ∈ cleanJSON (ascii "hdr \x7b\"a\":1") :=
  ⟨by decide, (cleanJSON_never_fails (ascii "no braces here")).2.1 (by decide), by decide,
    (cleanJSON_never_fails (ascii "hdr \x7b\"a\":1")).2.2 (by decide)⟩

/-! ## Parse failure -/

/-- C11: `convertDotNetJSON` returns the error `error parsing JSON` exactly
when the parser rejects both the cleaned text and the slice kept by the
recovery scan; in every other case it returns a document, and it never
panics.  The document is the conversion of the root that the first successful
parse gives.  In particular a text without a `{` is cleaned to `{}` and gives
no error under a parser that accepts `{}`. -/
theorem convertDotNetJSON_error_iff (unmarshal : List Byte → Option (List (String × JVal)))
    (jsonData : List Byte) :
    (convertDotNetJSON unmarshal jsonData = .error "error parsing JSON"
        ↔ (unmarshal (cleanJSON jsonData) = none
          ∧ unmarshal (recoveryScan (cleanJSON jsonData) 0 false false) = none))
      ∧ (¬ (unmarshal (cleanJSON jsonData) = none
            ∧ unmarshal (recoveryScan (cleanJSON jsonData) 0 false false) = none)
          → ∃ out, convertDotNetJSON unmarshal jsonData = .ok out)
      ∧ (∀ msg, convertDotNetJSON unmarshal jsonData = .error msg
          → msg = "error parsing JSON")
      ∧ (∀ msg, convertDotNetJSON unmarshal jsonData ≠ .panic msg)
      ∧ (∀ members, unmarshal (cleanJSON jsonData) = some members
          → convertDotNetJSON unmarshal jsonData = .ok (convertParsed members))
      ∧ (∀ members, unmarshal (cleanJSON jsonData) = none
          → unmarshal (recoveryScan (cleanJSON jsonData) 0 false false) = some members
          → convertDotNetJSON unmarshal jsonData = .ok (convertParsed members))
      ∧ ((0x7B : Byte) ∉ jsonData → ∀ members, unmarshal [0x7B, 0x7D] = some members
          → convertDotNetJSON unmarshal jsonData = .ok (convertParsed members)) := by
  refine ⟨?_, ?_, ?_, ?_, ?_, ?_, ?_⟩
  all_goals unfold convertDotNetJSON parseRoot
  · cases h1 : unmarshal (cleanJSON jsonData) with
    | some members => simp [h1]
    | none =>
      cases h2 : unmarshal (recoveryScan (cleanJSON jsonData) 0 false false) with
      | some members => simp [h1, h2]
      | none => simp [h1, h2]
  · cases h1 : unmarshal (cleanJSON jsonData) with
    | some members => simp [h1]
    | none =>
      cases h2 : unmarshal (recoveryScan (cleanJSON jsonData) 0 false false) with
      | some members => simp [h1, h2]
      | none => simp [h1, h2]
  · cases h1 : unmarshal (cleanJSON jsonData) with
    | some members => simp [h1]
    | none =>
      cases h2 : unmarshal (recoveryScan (cleanJSON jsonData) 0 false false) with
      | some members => simp [h1, h2]
      | none => simp [h1, h2]
  · cases h1 : unmarshal (cleanJSON jsonData) with
    | some members => simp [h1]
    | none =>
      cases h2 : unmarshal (recoveryScan (cleanJSON jsonData) 0 false false) with
      | some members => simp [h1, h2]
      | none => simp [h1, h2]
  · intro members h1
    simp [h1]
  · intro members h1 h2
    simp [h1, h2]
  · intro hno members h1
    rw [cleanJSON_of_no_open jsonData hno]
    simp [h1]

theorem convertDotNetJSON_error_iff_witness :
    (cleanJSON (ascii "\x7bnot json") = ascii "\x7bnot json"
        ∧ recoveryScan (ascii "\x7bnot json") 0 false false = ascii "\x7bnot json"
        ∧ toyUnmarshal (ascii "\x7bnot json") = none
        ∧ convertDotNetJSON toyUnmarshal (ascii "\x7bnot json") = .error "error parsing JSON")
      ∧ (cleanJSON (ascii "\x7b\"b\":1,\"a\":2\x7d junk") = ascii "\x7b\"b\":1,\"a\":2\x7d junk"
        ∧ toyUnmarshal (ascii "\x7b\"b\":1,\"a\":2\x7d junk") = none
        ∧ recoveryScan (ascii "\x7b\"b\":1,\"a\":2\x7d junk") 0 false false
          = ascii "\x7b\"b\":1,\"a\":2\x7d"
        ∧ convertDotNetJSON toyUnmarshal (ascii "\x7b\"b\":1,\"a\":2\x7d junk")
          = .ok (.obj [("a", .num 4611686018427387904), ("b", .num 4607182418800017408)]))
      ∧ ((0x7B : Byte) ∉ ascii "not json"
        ∧ cleanJSON (ascii "not json") = ascii "\x7b\x7d"
        ∧ convertDotNetJSON toyUnmarshal (ascii "not json") = .ok (.obj [])) :=
  ⟨⟨by decide, by decide, rfl,
      (convertDotNetJSON_error_iff toyUnmarshal (ascii "\x7bnot json")).1.2 ⟨rfl, rfl⟩⟩,
    ⟨by decide, rfl, by decide,
      (convertDotNetJSON_error_iff toyUnmarshal
        (ascii "\x7b\"b\":1,\"a\":2\x7d junk")).2.2.2.2.2.1 _ rfl rfl⟩,
    ⟨by decide, by decide,
      (convertDotNetJSON_error_iff toyUnmarshal (ascii "not json")).2.2.2.2.2.2
        (by decide) [] rfl⟩⟩

end RepoSave
